import Mathlib

/-!
Shallow embedding of the Tic-Tac-Toe game engine in `script.js`
(state management, win/draw detection, undo history, and the
minimax search with alpha-beta pruning), together with theorems
checking the specification's claims against it.

JavaScript arrays of 9 cells become `List (Option Player)`; the
in-place board mutation inside `minimax` is modelled by threading
the board through the recursion and returning it, so that the
"backtracking restores the board" behaviour is a provable statement
rather than an artifact of a purely functional translation.
`-Infinity`/`Infinity` are modelled by the integer sentinels
`negInf = -1000` and `posInf = 1000`: every score occurring in the
search lies in `[-10, 10]`, so all comparisons agree with the
JavaScript ones.
-/

inductive Player where
  | X : Player
  | O : Player
deriving DecidableEq, Repr

/-- `state.currentPlayer === 'X' ? 'O' : 'X'` -/
def Player.other : Player → Player
  | Player.X => Player.O
  | Player.O => Player.X

/-- A cell holds `null`, `'X'` or `'O'`. -/
abbrev Cell := Option Player

/-- `state.board`: an array of 9 cells. -/
abbrev Board := List Cell

/-- `Array(9).fill(null)` -/
def emptyBoard : Board := List.replicate 9 none

/-- `board[index]` (an out-of-range read yields `undefined`, which the
game logic treats exactly like `null`; both become `none`). -/
def getCell (b : Board) (i : Nat) : Cell := b.getD i none

/-- The 8 winning index triples (`winPatterns`). -/
def winPatterns : List (Nat × Nat × Nat) :=
  [(0, 1, 2), (3, 4, 5), (6, 7, 8),
   (0, 3, 6), (1, 4, 7), (2, 5, 8),
   (0, 4, 8), (2, 4, 6)]

/-- `checkWinOnBoard(board, player)`: some pattern has all three cells
equal to `player`. -/
def checkWinOnBoard (b : Board) (p : Player) : Bool :=
  winPatterns.any fun c =>
    getCell b c.1 == some p && getCell b c.2.1 == some p && getCell b c.2.2 == some p

/-- `state.board.every(cell => cell)` -/
def boardFull (b : Board) : Bool := b.all fun c => c.isSome

/-- `board.map((val, i) => val === null ? i : null).filter(val => val !== null)`:
the indices of the empty cells, in ascending order. -/
def emptyCells (b : Board) : List Nat :=
  (b.enum.filter fun x => x.2 == none).map fun x => x.1

/-- A history entry `{ index, player }`. -/
structure Move where
  index : Fin 9
  player : Player
deriving DecidableEq, Repr

/-- `state.mode` -/
inductive Mode where
  | twoPlayers : Mode
  | vsComputer : Mode
deriving DecidableEq, Repr

/-- `state.difficulty` -/
inductive Difficulty where
  | easy : Difficulty
  | unbeatable : Difficulty
deriving DecidableEq, Repr

/-- `state.scores` -/
structure Scores where
  X : Nat
  O : Nat
  Draw : Nat
deriving DecidableEq, Repr

/-- `state.scores[player]++` -/
def bumpScore (sc : Scores) (p : Player) : Scores :=
  match p with
  | Player.X => { sc with X := sc.X + 1 }
  | Player.O => { sc with O := sc.O + 1 }

/-- The whole `state` object (DOM selectors omitted). -/
structure GameState where
  board : Board
  currentPlayer : Player
  mode : Mode
  difficulty : Difficulty
  gameOver : Bool
  scores : Scores
  moveHistory : List Move
deriving DecidableEq, Repr

/-- The initial `state`. -/
def initialState : GameState :=
  { board := emptyBoard
    currentPlayer := Player.X
    mode := Mode.twoPlayers
    difficulty := Difficulty.easy
    gameOver := false
    scores := { X := 0, O := 0, Draw := 0 }
    moveHistory := [] }

/-- `checkWin(player)`: reads `state.board`. -/
def checkWin (s : GameState) (p : Player) : Bool := checkWinOnBoard s.board p

/-- `makeMove(index, player)`.  `endGame` only sets `gameOver` and touches
the DOM, so it is inlined as `gameOver := true`.  The trailing `render()`
and the computer-move trigger are presentation glue and modelled as no-ops. -/
def makeMove (s : GameState) (index : Fin 9) (player : Player) : GameState :=
  if (getCell s.board index.val).isSome || s.gameOver then s
  else if checkWinOnBoard (s.board.set index.val (some player)) player then
    { s with board := s.board.set index.val (some player),
             moveHistory := s.moveHistory ++ [⟨index, player⟩],
             scores := bumpScore s.scores player, gameOver := true }
  else if boardFull (s.board.set index.val (some player)) then
    { s with board := s.board.set index.val (some player),
             moveHistory := s.moveHistory ++ [⟨index, player⟩],
             scores := { s.scores with Draw := s.scores.Draw + 1 }, gameOver := true }
  else
    { s with board := s.board.set index.val (some player),
             moveHistory := s.moveHistory ++ [⟨index, player⟩],
             currentPlayer := s.currentPlayer.other }

/-- `newGame()`: clears board and history, keeps scores, mode, difficulty. -/
def newGame (s : GameState) : GameState :=
  { s with board := emptyBoard, currentPlayer := Player.X,
           moveHistory := [], gameOver := false }

/-- The `for (let i = 0; i < undoCount; i++)` pop loop in `undoMove`:
`pop()` on an empty array yields `undefined` and the `if (lastMove)` guard
then skips the board write. -/
def popLoop : Nat → List Move → Board → List Move × Board
  | 0, h, b => (h, b)
  | n + 1, h, b =>
    match h.getLast? with
    | none => popLoop n h b
    | some m => popLoop n h.dropLast (b.set m.index.val none)

/-- `undoMove()`. -/
def undoMove (s : GameState) : GameState :=
  if s.moveHistory.length == 0 || s.gameOver then s
  else
    let undoCount : Nat :=
      if s.mode == Mode.vsComputer && s.moveHistory.length > 1 then 2 else 1
    let hb := popLoop undoCount s.moveHistory s.board
    { s with moveHistory := hb.1, board := hb.2,
             currentPlayer :=
               match hb.1.getLast? with
               | some m => m.player.other
               | none => Player.X }

/-- The recoverable error kinds of the spec's engine API. -/
inductive MoveError where
  | CellOccupied : MoveError
  | GameAlreadyOver : MoveError
deriving DecidableEq, Repr

inductive UndoError where
  | NothingToUndo : UndoError
deriving DecidableEq, Repr

inductive SearchError where
  | NoLegalMoves : SearchError
deriving DecidableEq, Repr

/-- The spec's `applyMove(index, player) → Result<Unit, MoveError>` view of
`makeMove`: the source signals both failures by an early `return` (checking
`state.board[index]` before `state.gameOver`); the `Except` wrapper names
which guard fired. -/
def applyMove (s : GameState) (index : Fin 9) (player : Player) :
    Except MoveError GameState :=
  if (getCell s.board index.val).isSome then Except.error MoveError.CellOccupied
  else if s.gameOver then Except.error MoveError.GameAlreadyOver
  else Except.ok (makeMove s index player)

/-! ### The search engine (`getEasyMove`, `getBestMove`, `minimax`) -/

/-- A `{ index, score }` object pushed onto `moves` inside `minimax`. -/
structure MMove where
  index : Nat
  score : Int
deriving DecidableEq, Repr

/-- What `minimax` returns: terminal positions return `{ score }` with no
`index` field (`none`), interior positions return a full move object. -/
structure MMResult where
  score : Int
  index : Option Nat
deriving DecidableEq, Repr

/-- Sentinel for `-Infinity`; every minimax score lies in `[-10, 10]`. -/
def negInf : Int := -1000

/-- Sentinel for `Infinity`. -/
def posInf : Int := 1000

/-- The `player === 'O'` best-move scan: `bestScore` starts at `-Infinity`
and is replaced only on a strict `>`, so the first maximum is kept. -/
def scanO : List MMove → Int → Option MMove → Option MMove
  | [], _, best => best
  | m :: rest, bestScore, best =>
    if bestScore < m.score then scanO rest m.score (some m)
    else scanO rest bestScore best

/-- The `else` best-move scan (minimizer): strict `<` against `Infinity`. -/
def scanX : List MMove → Int → Option MMove → Option MMove
  | [], _, best => best
  | m :: rest, bestScore, best =>
    if m.score < bestScore then scanX rest m.score (some m)
    else scanX rest bestScore best

/-- `moves[bestMove]` for the maximizer. -/
def selectO (ms : List MMove) : Option MMove := scanO ms negInf none

/-- `moves[bestMove]` for the minimizer. -/
def selectX (ms : List MMove) : Option MMove := scanX ms posInf none

/-- The `for` loop of `minimax` over the empty cells, with `rec` standing
for the recursive call at one less fuel.  Each iteration writes `player`
into the cell, recurses, updates `alpha`/`beta`, retracts the write
(`currentBoard[emptyCells[i]] = null`), pushes the move, and breaks when
`alpha >= beta`.  The board is threaded explicitly to model the in-place
mutation of `currentBoard`. -/
def mmLoopG (rec : Board → Player → Int → Int → MMResult × Board) :
    List Nat → Board → Player → Int → Int → List MMove → List MMove × Board
  | [], b, _, _, _, acc => (acc, b)
  | i :: rest, b, p, alpha, beta, acc =>
    let b1 := b.set i (some p)
    match p with
    | Player.O =>
      match rec b1 Player.X alpha beta with
      | (r, b2) =>
        let alpha1 := max alpha r.score
        let b3 := b2.set i none
        let acc1 := acc ++ [⟨i, r.score⟩]
        if beta ≤ alpha1 then (acc1, b3)
        else mmLoopG rec rest b3 Player.O alpha1 beta acc1
    | Player.X =>
      match rec b1 Player.O alpha beta with
      | (r, b2) =>
        let beta1 := min beta r.score
        let b3 := b2.set i none
        let acc1 := acc ++ [⟨i, r.score⟩]
        if beta1 ≤ alpha then (acc1, b3)
        else mmLoopG rec rest b3 Player.X alpha beta1 acc1

/-- `minimax(currentBoard, player, alpha, beta)`, with a fuel argument to
make the recursion structural; fuel `9` is enough for any 9-cell board
(each ply has one fewer empty cell).  The second component is the final
value of the `currentBoard` buffer, modelling the in-place mutation. -/
def minimaxF : Nat → Board → Player → Int → Int → MMResult × Board
  | 0, b, _, _, _ => (⟨0, none⟩, b)
  | fuel + 1, b, p, alpha, beta =>
    if checkWinOnBoard b Player.X then (⟨-10, none⟩, b)
    else if checkWinOnBoard b Player.O then (⟨10, none⟩, b)
    else if emptyCells b == [] then (⟨0, none⟩, b)
    else
      match mmLoopG (minimaxF fuel) (emptyCells b) b p alpha beta [] with
      | (moves, b1) =>
        match (match p with
               | Player.O => selectO moves
               | Player.X => selectX moves) with
        | some m => (⟨m.score, some m.index⟩, b1)
        | none => (⟨0, none⟩, b1)

/-- `minimax` as called from `getBestMove` (enough fuel for 9 cells). -/
def minimax (b : Board) (p : Player) (alpha beta : Int) : MMResult × Board :=
  minimaxF 9 b p alpha beta

/-- `getBestMove()`: `minimax(state.board, 'O', -Infinity, Infinity).index`.
On a terminal board the `index` field is absent (`none`). -/
def getBestMove (b : Board) : Option Nat :=
  (minimax b Player.O negInf posInf).1.index

/-- `getEasyMove()` with the sampled value `Math.floor(Math.random() *
emptyCells.length)` passed in as `k`; `emptyCells[k]` on an empty list is
`undefined` (`none`). -/
def getEasyMove (b : Board) (k : Nat) : Option Nat :=
  (emptyCells b).get? k

/-- The spec's `chooseOptimalMove(board, player)` API shell over
`getBestMove`: an absent index surfaces as `NoLegalMoves`. -/
def chooseOptimalMove (b : Board) : Except SearchError Nat :=
  match getBestMove b with
  | some i => Except.ok i
  | none => Except.error SearchError.NoLegalMoves

/-- The spec's `chooseRandomMove(board)` API shell over `getEasyMove`. -/
def chooseRandomMove (b : Board) (k : Nat) : Except SearchError Nat :=
  match getEasyMove b k with
  | some i => Except.ok i
  | none => Except.error SearchError.NoLegalMoves

/-! ### Complete games in which O's moves follow `getBestMove`

`Terminal b` is the game-over condition of the search (`minimax` stops on
a win for either side or no empty cell).  `OPlayEnd b c` holds when a
complete game fragment leads from `b` (X to move) to the final board `c`,
with X choosing arbitrary legal moves and O always playing
`getBestMove`. -/

def Terminal (b : Board) : Prop :=
  checkWinOnBoard b Player.X = true ∨ checkWinOnBoard b Player.O = true ∨
    emptyCells b = []

instance (b : Board) : Decidable (Terminal b) := by
  unfold Terminal
  infer_instance

inductive OPlayEnd : Board → Board → Prop where
  | endX :
      ∀ (b : Board) (i : Nat), ¬Terminal b → i ∈ emptyCells b →
        Terminal (b.set i (some Player.X)) →
        OPlayEnd b (b.set i (some Player.X))
  | endO :
      ∀ (b : Board) (i j : Nat), ¬Terminal b → i ∈ emptyCells b →
        ¬Terminal (b.set i (some Player.X)) →
        getBestMove (b.set i (some Player.X)) = some j →
        Terminal ((b.set i (some Player.X)).set j (some Player.O)) →
        OPlayEnd b ((b.set i (some Player.X)).set j (some Player.O))
  | step :
      ∀ (b c : Board) (i j : Nat), ¬Terminal b → i ∈ emptyCells b →
        ¬Terminal (b.set i (some Player.X)) →
        getBestMove (b.set i (some Player.X)) = some j →
        ¬Terminal ((b.set i (some Player.X)).set j (some Player.O)) →
        OPlayEnd ((b.set i (some Player.X)).set j (some Player.O)) c →
        OPlayEnd b c

/-! ### Reachable states of the state machine -/

/-- States reachable from `initialState` by any sequence of `makeMove`
(with arbitrary index and player argument), `undoMove` and `newGame`
calls. -/
inductive Reachable : GameState → Prop where
  | init : Reachable initialState
  | move : ∀ s i p, Reachable s → Reachable (makeMove s i p)
  | undo : ∀ s, Reachable s → Reachable (undoMove s)
  | reset : ∀ s, Reachable s → Reachable (newGame s)

/-- States reachable by legal alternating play only: each move is made by
the player whose turn it is. -/
inductive AltReachable : GameState → Prop where
  | init : AltReachable initialState
  | move : ∀ s i, AltReachable s → AltReachable (makeMove s i s.currentPlayer)

/-- Replaying a history from the empty board: each recorded move is
written in order. -/
def replayBoard (h : List Move) : Board :=
  h.foldl (fun b m => b.set m.index.val (some m.player)) emptyBoard

/-- Number of occupied cells. -/
def occupiedCount (b : Board) : Nat := (b.filter fun c => c.isSome).length

/-! ### A packed evaluation model of the search

To settle the game-theoretic claim about `getBestMove` inside the kernel,
the search is mirrored on a packed representation: a board of length 9 is
encoded as `xmask b + 512 * omask b` (one bit per cell and per player),
scores are shifted by `+1000` into `Nat`, and the move-list/selection pass
of `minimax` is fused into one scan.  Every function below is proved
extensionally equal to its counterpart above on boards of length 9; the
claims themselves are stated only in terms of the faithful model. -/

/-- Bit mask of X's cells (cell 0 is the least significant bit). -/
def xmask : Board → Nat
  | [] => 0
  | c :: rest => 2 * xmask rest + (if c == some Player.X then 1 else 0)

/-- Bit mask of O's cells. -/
def omask : Board → Nat
  | [] => 0
  | c :: rest => 2 * omask rest + (if c == some Player.O then 1 else 0)

/-- Packed encoding of a board. -/
def encodeBM (b : Board) : Nat := xmask b + 512 * omask b

/-- Bit `i` of `m`, as the arithmetic test the kernel evaluates fastest. -/
def bitAt (m i : Nat) : Bool := (m >>> i) % 2 == 1

/-- The 512-entry table of winning 9-bit masks: bit `m` is set exactly
when mask `m` contains one of the 8 winning triples. -/
def winTable : Nat := 13407807929942597099574013255132872028739945207506855185984536220990031079651139828398970461379756263750237762468915789768244935419011274038663501414695040

/-- `checkWinOnBoard · Player.X` on the packed encoding. -/
def winTBX (n : Nat) : Bool := bitAt winTable (n % 512)

/-- `checkWinOnBoard · Player.O` on the packed encoding. -/
def winTBO (n : Nat) : Bool := bitAt winTable (n / 512)

/-- `checkWinOnBoard` written as the explicit 8-clause formula over the
bits of a player's mask. -/
def winFormula (m : Nat) : Bool :=
  (bitAt m 0 && bitAt m 1 && bitAt m 2) ||
  ((bitAt m 3 && bitAt m 4 && bitAt m 5) ||
  ((bitAt m 6 && bitAt m 7 && bitAt m 8) ||
  ((bitAt m 0 && bitAt m 3 && bitAt m 6) ||
  ((bitAt m 1 && bitAt m 4 && bitAt m 7) ||
  ((bitAt m 2 && bitAt m 5 && bitAt m 8) ||
  ((bitAt m 0 && bitAt m 4 && bitAt m 8) ||
  ((bitAt m 2 && bitAt m 4 && bitAt m 6) || false)))))))

/-- `emptyCells` on the packed encoding: peel `d` cells starting at index
`pos`, with `mx`/`mo` the remaining X/O mask bits. -/
def cellsGo : Nat → Nat → Nat → Nat → List Nat
  | 0, _, _, _ => []
  | d + 1, pos, mx, mo =>
    if mx % 2 == 0 && mo % 2 == 0 then
      pos :: cellsGo d (pos + 1) (mx / 2) (mo / 2)
    else cellsGo d (pos + 1) (mx / 2) (mo / 2)

/-- `emptyCells` on the packed encoding. -/
def cellsBM (n : Nat) : List Nat := cellsGo 9 0 (n % 512) (n / 512)

/-- A move record with the score shifted into `Nat` (`score + 1000`). -/
structure MMoveN where
  index : Nat
  score : Nat
deriving DecidableEq, Repr

/-- A search result with the score shifted into `Nat`. -/
structure MMResultN where
  score : Nat
  index : Option Nat
deriving DecidableEq, Repr

/-- Score shift `Int → Nat`: `-1000 ↦ 0`, `0 ↦ 1000`, `1000 ↦ 2000`. -/
def shiftScore (a : Int) : Nat := (a + 1000).toNat

/-- Shift of a recorded move. -/
def shiftMM (m : MMove) : MMoveN := ⟨m.index, shiftScore m.score⟩

/-- The loop of `minimax` on the packed encoding, with the `moves` array
and the post-loop best scan fused into the running pair
`(bs, best)` (the scan state over the moves pushed so far). -/
def mmGoBM (rec : Nat → Player → Nat → Nat → MMResultN) :
    List Nat → Nat → Player → Nat → Nat → Nat → Option MMoveN → Option MMoveN
  | [], _, _, _, _, _, best => best
  | i :: rest, n, p, alpha, beta, bs, best =>
    match p with
    | Player.O =>
      let r := rec (n + (1 <<< i) * 512) Player.X alpha beta
      let alpha1 := max alpha r.score
      if beta ≤ alpha1 then (if bs < r.score then some ⟨i, r.score⟩ else best)
      else if bs < r.score then
        mmGoBM rec rest n Player.O alpha1 beta r.score (some ⟨i, r.score⟩)
      else mmGoBM rec rest n Player.O alpha1 beta bs best
    | Player.X =>
      let r := rec (n + (1 <<< i)) Player.O alpha beta
      let beta1 := min beta r.score
      if beta1 ≤ alpha then (if r.score < bs then some ⟨i, r.score⟩ else best)
      else if r.score < bs then
        mmGoBM rec rest n Player.X alpha beta1 r.score (some ⟨i, r.score⟩)
      else mmGoBM rec rest n Player.X alpha beta1 bs best

/-- `minimaxF` on the packed encoding. -/
def minimaxBM : Nat → Nat → Player → Nat → Nat → MMResultN
  | 0, _, _, _, _ => ⟨1000, none⟩
  | fuel + 1, n, p, alpha, beta =>
    if winTBX n then ⟨990, none⟩
    else if winTBO n then ⟨1010, none⟩
    else
      match cellsBM n with
      | [] => ⟨1000, none⟩
      | i :: rest =>
        match (match p with
               | Player.O => mmGoBM (minimaxBM fuel) (i :: rest) n Player.O alpha beta 0 none
               | Player.X => mmGoBM (minimaxBM fuel) (i :: rest) n Player.X alpha beta 2000 none) with
        | some m => ⟨m.score, some m.index⟩
        | none => ⟨1000, none⟩

/-- `getBestMove` on the packed encoding. -/
def bestBM (n : Nat) : Option Nat := (minimaxBM 9 n Player.O 0 2000).index

/-- One X move of the bounded safety search on the packed encoding:
X plays `i`, then O replies with `bestBM` if the game goes on. -/
def noXStepG (next : Nat → Bool) (n i : Nat) : Bool :=
  let n1 := n + (1 <<< i)
  if winTBX n1 then false
  else if winTBO n1 then true
  else
    match cellsBM n1 with
    | [] => true
    | _ :: _ =>
      match bestBM n1 with
      | none => false
      | some j => next (n1 + (1 <<< j) * 512)

/-- Bounded safety search on the packed encoding: with X to move on `n`,
every sequence of legal X moves answered by `bestBM` avoids an X win.
One unit of fuel covers one X move and O's reply. -/
def noXWinBM : Nat → Nat → Bool
  | 0, n => !winTBX n
  | fuel + 1, n =>
    if winTBX n then false
    else if winTBO n then true
    else
      match cellsBM n with
      | [] => true
      | i :: rest => (i :: rest).all (noXStepG (noXWinBM fuel) n)


/-- The `currentPlayer` computed at the end of `undoMove`: the opponent of
the player of the last remaining history entry, or X for an empty history. -/
def lastPlayerOr (h : List Move) : Player :=
  match h.getLast? with
  | some m => m.player.other
  | none => Player.X

/-- Recursive characterization of `emptyCells`, used in proofs. -/
def emptyIdx : Board → List Nat
  | [] => []
  | c :: rest =>
    if c == none then 0 :: (emptyIdx rest).map (· + 1)
    else (emptyIdx rest).map (· + 1)

/-- The running state of the `scanO` pass (current best score and best
move), used to relate the fused scan of `mmGoBM` to `selectO`. -/
def scanStO : List MMove → Int → Option MMove → Int × Option MMove
  | [], s, best => (s, best)
  | m :: rest, s, best =>
    if s < m.score then scanStO rest m.score (some m)
    else scanStO rest s best

/-- The running state of the `scanX` pass. -/
def scanStX : List MMove → Int → Option MMove → Int × Option MMove
  | [], s, best => (s, best)
  | m :: rest, s, best =>
    if m.score < s then scanStX rest m.score (some m)
    else scanStX rest s best

/-! ## Basic lemmas about cells and `emptyCells` -/

theorem getCell_set_self (b : Board) (i : Nat) (v : Cell) (h : i < b.length) :
    getCell (b.set i v) i = v := by
  simp [getCell, List.getD, List.getElem?_set_self' , h]

theorem getCell_set_ne (b : Board) (i j : Nat) (v : Cell) (h : j ≠ i) :
    getCell (b.set i v) j = getCell b j := by
  simp [getCell, List.getD, List.getElem?_set_ne (Ne.symm h)]

theorem set_getCell_none (b : Board) (i : Nat) (h : getCell b i = none) :
    b.set i none = b := by
  induction b generalizing i with
  | nil => rfl
  | cons c rest ih =>
    cases i with
    | zero => simp [getCell, List.getD] at h; simp [List.set, h]
    | succ k =>
      simp only [getCell, List.getD, List.getElem?_cons_succ] at h
      simp [List.set, ih k h]

theorem map_add_zero_id (l : List Nat) : l.map (· + 0) = l := by
  induction l with
  | nil => rfl
  | cons a t ih => simp [ih]

theorem map_add_add (l : List Nat) (k : Nat) :
    (l.map (· + 1)).map (· + k) = l.map (· + (k + 1)) := by
  induction l with
  | nil => rfl
  | cons a t ih => simp [ih]; omega

theorem getCell_cons_zero (c : Cell) (rest : Board) : getCell (c :: rest) 0 = c := by
  simp [getCell, List.getD_cons_zero]

theorem getCell_cons_succ (c : Cell) (rest : Board) (k : Nat) :
    getCell (c :: rest) (k + 1) = getCell rest k := by
  simp [getCell, List.getD_cons_succ]

theorem emptyIdx_none (rest : Board) :
    emptyIdx (none :: rest) = 0 :: (emptyIdx rest).map (· + 1) := by
  simp [emptyIdx]

theorem emptyIdx_some (p : Player) (rest : Board) :
    emptyIdx (some p :: rest) = (emptyIdx rest).map (· + 1) := by
  simp [emptyIdx]

theorem enumFrom_filter_none (b : Board) (k : Nat) :
    ((b.enumFrom k).filter fun x => x.2 == none).map (fun x => x.1) =
      (emptyIdx b).map (· + k) := by
  induction b generalizing k with
  | nil => rfl
  | cons c rest ih =>
    rw [List.enumFrom_cons]
    cases c with
    | none =>
      rw [emptyIdx_none]
      simp only [List.filter_cons, List.map_cons]
      simp only [show ((k, (none : Cell)).2 == none) = true from rfl]
      rw [if_pos trivial, List.map_cons, ih (k + 1), map_add_add]
      simp
    | some p =>
      rw [emptyIdx_some]
      simp only [List.filter_cons]
      simp only [show ((k, (some p : Cell)).2 == none) = false from rfl]
      rw [if_neg Bool.false_ne_true, ih (k + 1), map_add_add]

theorem emptyCells_eq_emptyIdx (b : Board) : emptyCells b = emptyIdx b := by
  have h := enumFrom_filter_none b 0
  rw [map_add_zero_id] at h
  simpa [emptyCells, List.enum] using h

theorem emptyCells_cons (c : Cell) (rest : Board) :
    emptyCells (c :: rest) =
      if c == none then 0 :: (emptyCells rest).map (· + 1)
      else (emptyCells rest).map (· + 1) := by
  rw [emptyCells_eq_emptyIdx, emptyCells_eq_emptyIdx]
  rfl

theorem mem_emptyCells (b : Board) (i : Nat) :
    i ∈ emptyCells b ↔ i < b.length ∧ getCell b i = none := by
  rw [emptyCells_eq_emptyIdx]
  induction b generalizing i with
  | nil => simp [emptyIdx, getCell, List.getD]
  | cons c rest ih =>
    cases c with
    | none =>
      rw [emptyIdx_none]
      cases i with
      | zero => simp [getCell_cons_zero]
      | succ k =>
        simp only [List.mem_cons, List.mem_map, getCell_cons_succ, List.length_cons]
        constructor
        · rintro (h | ⟨j, hj, hjk⟩)
          · omega
          · have hj' := (ih j).mp hj
            have : j = k := by omega
            subst this
            exact ⟨by omega, hj'.2⟩
        · rintro ⟨h1, h2⟩
          exact Or.inr ⟨k, (ih k).mpr ⟨by omega, h2⟩, rfl⟩
    | some p =>
      rw [emptyIdx_some]
      cases i with
      | zero =>
        simp only [List.mem_map, getCell_cons_zero]
        constructor
        · rintro ⟨j, hj, hjk⟩; omega
        · rintro ⟨h1, h2⟩; simp at h2
      | succ k =>
        simp only [List.mem_map, getCell_cons_succ, List.length_cons]
        constructor
        · rintro ⟨j, hj, hjk⟩
          have hj' := (ih j).mp hj
          have : j = k := by omega
          subst this
          exact ⟨by omega, hj'.2⟩
        · rintro ⟨h1, h2⟩
          exact ⟨k, (ih k).mpr ⟨by omega, h2⟩, rfl⟩

/-! ## Lemmas about `popLoop` -/

theorem popLoop_one (h : List Move) (b : Board) (m : Move)
    (hm : h.getLast? = some m) :
    popLoop 1 h b = (h.dropLast, b.set m.index.val none) := by
  simp [popLoop, hm]

theorem popLoop_two (h : List Move) (b : Board) (m : Move)
    (hm : h.getLast? = some m) :
    popLoop 2 h b = popLoop 1 h.dropLast (b.set m.index.val none) := by
  conv_lhs => rw [show (2 : Nat) = 1 + 1 from rfl, popLoop]
  rw [hm]

theorem popLoop_length_le (n : Nat) (h : List Move) (b : Board) :
    (popLoop n h b).1.length ≤ h.length := by
  induction n generalizing h b with
  | zero => exact Nat.le_refl _
  | succ k ih =>
    rw [popLoop]
    cases hm : h.getLast? with
    | none => exact ih h b
    | some m =>
      calc (popLoop k h.dropLast (b.set m.index.val none)).1.length
          ≤ h.dropLast.length := ih _ _
        _ ≤ h.length := by rw [List.length_dropLast]; omega

theorem popLoop_length_lt (n : Nat) (h : List Move) (b : Board)
    (hn : n ≠ 0) (hh : h ≠ []) : (popLoop n h b).1.length < h.length := by
  obtain ⟨k, rfl⟩ : ∃ k, n = k + 1 := ⟨n - 1, by omega⟩
  obtain ⟨m, hm⟩ : ∃ m, h.getLast? = some m := by
    cases hg : h.getLast? with
    | none => exact absurd (List.getLast?_eq_none_iff.mp hg) hh
    | some m => exact ⟨m, rfl⟩
  rw [popLoop, hm]
  calc (popLoop k h.dropLast (b.set m.index.val none)).1.length
      ≤ h.dropLast.length := popLoop_length_le _ _ _
    _ < h.length := by
        rw [List.length_dropLast]
        have : h.length ≠ 0 := fun h0 => hh (List.length_eq_zero.mp h0)
        omega

/-! ## C4: rejected moves change nothing -/

/-- **C4.** If the target cell is occupied or the game is over, `makeMove`
returns the state unchanged, and the `applyMove` view reports
`CellOccupied` (checked first, as in the source) or `GameAlreadyOver`. -/
theorem makeMove_rejects (s : GameState) (i : Fin 9) (p : Player)
    (h : (getCell s.board i.val).isSome = true ∨ s.gameOver = true) :
    makeMove s i p = s ∧
    applyMove s i p =
      Except.error
        (if (getCell s.board i.val).isSome then MoveError.CellOccupied
         else MoveError.GameAlreadyOver) := by
  by_cases hc : (getCell s.board i.val).isSome
  · exact ⟨by unfold makeMove; simp [hc], by unfold applyMove; simp [hc]⟩
  · have hg : s.gameOver = true := by
      rcases h with h | h
      · exact absurd h hc
      · exact h
    exact ⟨by unfold makeMove; simp [hg], by unfold applyMove; simp [hc, hg]⟩

theorem makeMove_rejects_witness :
    ((getCell (⟨[some Player.X, none, none, none, none, none, none, none, none],
        Player.O, Mode.twoPlayers, Difficulty.easy, false, ⟨0, 0, 0⟩,
        [⟨0, Player.X⟩]⟩ : GameState).board (0 : Fin 9).val).isSome = true ∨
      (⟨[some Player.X, none, none, none, none, none, none, none, none],
        Player.O, Mode.twoPlayers, Difficulty.easy, false, ⟨0, 0, 0⟩,
        [⟨0, Player.X⟩]⟩ : GameState).gameOver = true) ∧
    makeMove (⟨[some Player.X, none, none, none, none, none, none, none, none],
        Player.O, Mode.twoPlayers, Difficulty.easy, false, ⟨0, 0, 0⟩,
        [⟨0, Player.X⟩]⟩ : GameState) 0 Player.O =
      (⟨[some Player.X, none, none, none, none, none, none, none, none],
        Player.O, Mode.twoPlayers, Difficulty.easy, false, ⟨0, 0, 0⟩,
        [⟨0, Player.X⟩]⟩ : GameState) ∧
    applyMove (⟨[some Player.X, none, none, none, none, none, none, none, none],
        Player.O, Mode.twoPlayers, Difficulty.easy, false, ⟨0, 0, 0⟩,
        [⟨0, Player.X⟩]⟩ : GameState) 0 Player.O =
      Except.error MoveError.CellOccupied := by
  have h := makeMove_rejects
    (⟨[some Player.X, none, none, none, none, none, none, none, none],
      Player.O, Mode.twoPlayers, Difficulty.easy, false, ⟨0, 0, 0⟩,
      [⟨0, Player.X⟩]⟩ : GameState) 0 Player.O (Or.inl (by decide))
  exact ⟨Or.inl (by decide), h.1,
    h.2.trans (congrArg Except.error (if_pos (by decide)))⟩

/-! ## C10: undo never touches the scores or the game-over flag -/

/-- **C10.** When `undoMove` actually pops (history non-empty, game not
over), the scores and the `gameOver` flag are unchanged. -/
theorem undoMove_frame (s : GameState)
    (h1 : s.moveHistory ≠ []) (h2 : s.gameOver = false) :
    (undoMove s).scores = s.scores ∧ (undoMove s).gameOver = s.gameOver := by
  unfold undoMove
  split
  · exact ⟨rfl, rfl⟩
  · exact ⟨rfl, rfl⟩

theorem undoMove_frame_witness :
    ((⟨[some Player.X, none, none, none, none, none, none, none, none],
        Player.O, Mode.twoPlayers, Difficulty.easy, false, ⟨3, 1, 2⟩,
        [⟨0, Player.X⟩]⟩ : GameState).moveHistory ≠ [] ∧
      (⟨[some Player.X, none, none, none, none, none, none, none, none],
        Player.O, Mode.twoPlayers, Difficulty.easy, false, ⟨3, 1, 2⟩,
        [⟨0, Player.X⟩]⟩ : GameState).gameOver = false) ∧
    (undoMove (⟨[some Player.X, none, none, none, none, none, none, none, none],
        Player.O, Mode.twoPlayers, Difficulty.easy, false, ⟨3, 1, 2⟩,
        [⟨0, Player.X⟩]⟩ : GameState)).scores = ⟨3, 1, 2⟩ := by
  refine ⟨⟨by decide, rfl⟩, ?_⟩
  exact (undoMove_frame _ (by decide) rfl).1

/-! ## C5: what `undoMove` does -/

/-- **C5.** `undoMove` is a no-op exactly when the history is empty or the
game is over.  Otherwise it pops the last move and clears its cell — and,
when the mode is `vsComputer` and at least two moves are recorded, pops the
second-to-last move too — and sets `currentPlayer` to the opponent of the
player of the last remaining entry (X if none remains). -/
theorem undoMove_spec (s : GameState) :
    (undoMove s = s ↔ (s.moveHistory = [] ∨ s.gameOver = true)) ∧
    (s.gameOver = false →
      (∀ m1, s.moveHistory.getLast? = some m1 →
        (s.mode = Mode.twoPlayers ∨ s.moveHistory.length = 1) →
        undoMove s =
          { s with moveHistory := s.moveHistory.dropLast,
                   board := s.board.set m1.index.val none,
                   currentPlayer := lastPlayerOr s.moveHistory.dropLast }) ∧
      (∀ m1 m2, s.moveHistory.dropLast.getLast? = some m1 →
        s.moveHistory.getLast? = some m2 →
        s.mode = Mode.vsComputer →
        undoMove s =
          { s with moveHistory := s.moveHistory.dropLast.dropLast,
                   board := (s.board.set m2.index.val none).set m1.index.val none,
                   currentPlayer := lastPlayerOr s.moveHistory.dropLast.dropLast })) := by
  constructor
  · constructor
    · intro he
      by_contra hn
      push_neg at hn
      obtain ⟨hh, hg⟩ := hn
      have hg' : s.gameOver = false := by
        cases h : s.gameOver
        · rfl
        · exact absurd h hg
      have hlen : (undoMove s).moveHistory.length < s.moveHistory.length := by
        unfold undoMove
        rw [if_neg (by simp [hg', List.length_eq_zero, hh])]
        exact popLoop_length_lt _ _ _ (by split <;> omega) hh
      rw [he] at hlen
      exact absurd hlen (Nat.lt_irrefl _)
    · intro h
      unfold undoMove
      rcases h with h | h
      · rw [if_pos (by simp [h])]
      · rw [if_pos (by simp [h])]
  · intro hg
    constructor
    · intro m1 hm1 hcase
      have hne : s.moveHistory ≠ [] := by
        intro h0
        rw [h0] at hm1
        simp at hm1
      unfold undoMove
      rw [if_neg (by simp [hg, List.length_eq_zero, hne])]
      have hcount : (s.mode == Mode.vsComputer && decide (s.moveHistory.length > 1)) = false := by
        rcases hcase with h | h
        · simp [h]
        · simp [h]
      rw [if_neg (by simp [hcount])]
      simp only [popLoop_one s.moveHistory s.board m1 hm1, lastPlayerOr]
    · intro m1 m2 hm1 hm2 hmode
      have hne : s.moveHistory ≠ [] := by
        intro h0
        rw [h0] at hm2
        simp at hm2
      have hlen2 : 1 < s.moveHistory.length := by
        have h1 : s.moveHistory.dropLast ≠ [] := by
          intro h0
          rw [h0] at hm1
          simp at hm1
        have h2 : s.moveHistory.dropLast.length ≠ 0 :=
          fun h0 => h1 (List.length_eq_zero.mp h0)
        rw [List.length_dropLast] at h2
        omega
      unfold undoMove
      rw [if_neg (by simp [hg, List.length_eq_zero, hne])]
      rw [if_pos (by simp [hmode, hlen2])]
      simp only [popLoop_two s.moveHistory s.board m2 hm2,
        popLoop_one s.moveHistory.dropLast _ m1 hm1, lastPlayerOr]

theorem undoMove_spec_witness :
    undoMove (⟨[some Player.X, none, none, none, some Player.O, none, none, none, none],
        Player.X, Mode.vsComputer, Difficulty.unbeatable, false, ⟨0, 0, 0⟩,
        [⟨0, Player.X⟩, ⟨4, Player.O⟩]⟩ : GameState) =
      (⟨[none, none, none, none, none, none, none, none, none],
        Player.X, Mode.vsComputer, Difficulty.unbeatable, false, ⟨0, 0, 0⟩,
        []⟩ : GameState) := by
  have h := ((undoMove_spec
    (⟨[some Player.X, none, none, none, some Player.O, none, none, none, none],
        Player.X, Mode.vsComputer, Difficulty.unbeatable, false, ⟨0, 0, 0⟩,
        [⟨0, Player.X⟩, ⟨4, Player.O⟩]⟩ : GameState)).2 rfl).2
    ⟨0, Player.X⟩ ⟨4, Player.O⟩ (by decide) (by decide) rfl
  exact h.trans (by decide)

/-! ## C2: what a successful `makeMove` does -/

/-- **C2.** On an empty cell with the game not over, `makeMove` writes the
mark, appends the move to the history, and then: if the mover completed a
pattern, bumps the mover's score and ends the game; otherwise, if the board
is now full, bumps the draw score and ends the game; otherwise switches the
current player.  The win check comes first, so a winning move on the last
empty cell is a win, never a draw. -/
theorem makeMove_spec (s : GameState) (i : Fin 9) (p : Player)
    (hc : getCell s.board i.val = none) (hg : s.gameOver = false) :
    (checkWinOnBoard (s.board.set i.val (some p)) p = true →
      makeMove s i p =
        { s with board := s.board.set i.val (some p),
                 moveHistory := s.moveHistory ++ [⟨i, p⟩],
                 scores := bumpScore s.scores p,
                 gameOver := true }) ∧
    (checkWinOnBoard (s.board.set i.val (some p)) p = false →
      boardFull (s.board.set i.val (some p)) = true →
      makeMove s i p =
        { s with board := s.board.set i.val (some p),
                 moveHistory := s.moveHistory ++ [⟨i, p⟩],
                 scores := { s.scores with Draw := s.scores.Draw + 1 },
                 gameOver := true }) ∧
    (checkWinOnBoard (s.board.set i.val (some p)) p = false →
      boardFull (s.board.set i.val (some p)) = false →
      makeMove s i p =
        { s with board := s.board.set i.val (some p),
                 moveHistory := s.moveHistory ++ [⟨i, p⟩],
                 currentPlayer := s.currentPlayer.other }) := by
  refine ⟨fun h1 => ?_, fun h1 h2 => ?_, fun h1 h2 => ?_⟩
  · simp [makeMove, hc, hg, h1]
  · simp [makeMove, hc, hg, h1, h2]
  · simp [makeMove, hc, hg, h1, h2]

theorem makeMove_spec_witness :
    makeMove (⟨[some Player.X, some Player.X, none, some Player.O, some Player.O,
        none, none, none, none],
        Player.X, Mode.twoPlayers, Difficulty.easy, false, ⟨0, 0, 0⟩, []⟩ : GameState)
      2 Player.X =
    (⟨[some Player.X, some Player.X, some Player.X, some Player.O, some Player.O,
        none, none, none, none],
        Player.X, Mode.twoPlayers, Difficulty.easy, true, ⟨1, 0, 0⟩,
        [⟨2, Player.X⟩]⟩ : GameState) := by
  have h := (makeMove_spec
    (⟨[some Player.X, some Player.X, none, some Player.O, some Player.O,
        none, none, none, none],
        Player.X, Mode.twoPlayers, Difficulty.easy, false, ⟨0, 0, 0⟩, []⟩ : GameState)
    2 Player.X (by decide) rfl).1 (by decide)
  exact h.trans (by decide)

/-! ## C9: both move generators fail on a full board -/

theorem emptyCells_nil_of_full (b : Board) (h : boardFull b = true) :
    emptyCells b = [] := by
  rw [emptyCells_eq_emptyIdx]
  induction b with
  | nil => rfl
  | cons c rest ih =>
    simp only [boardFull, List.all_cons, Bool.and_eq_true] at h
    cases c with
    | none => simp at h
    | some p =>
      rw [emptyIdx_some, List.map_eq_nil_iff]
      exact ih h.2

theorem minimaxF_index_none_of_no_cells (fuel : Nat) (b : Board) (p : Player)
    (a c : Int) (h : emptyCells b = []) :
    (minimaxF fuel b p a c).1.index = none := by
  cases fuel with
  | zero => rfl
  | succ k =>
    simp only [minimaxF, h]
    split
    · rfl
    · split
      · rfl
      · rfl

/-- **C9.** On a full board, `getEasyMove` and `getBestMove` produce no
index (`undefined` in the source), and the spec-level wrappers
`chooseRandomMove`/`chooseOptimalMove` fail with `NoLegalMoves`. -/
theorem search_noLegalMoves (b : Board) (k : Nat) (h : boardFull b = true) :
    getEasyMove b k = none ∧ getBestMove b = none ∧
    chooseRandomMove b k = Except.error SearchError.NoLegalMoves ∧
    chooseOptimalMove b = Except.error SearchError.NoLegalMoves := by
  have hE := emptyCells_nil_of_full b h
  have h1 : getEasyMove b k = none := by simp [getEasyMove, hE]
  have h2 : getBestMove b = none :=
    minimaxF_index_none_of_no_cells 9 b Player.O negInf posInf hE
  refine ⟨h1, h2, ?_, ?_⟩
  · simp [chooseRandomMove, h1]
  · simp [chooseOptimalMove, h2]

theorem search_noLegalMoves_witness :
    boardFull [some Player.X, some Player.O, some Player.X, some Player.O,
      some Player.X, some Player.O, some Player.O, some Player.X,
      some Player.X] = true ∧
    chooseOptimalMove [some Player.X, some Player.O, some Player.X, some Player.O,
      some Player.X, some Player.O, some Player.O, some Player.X,
      some Player.X] = Except.error SearchError.NoLegalMoves := by
  refine ⟨by decide, ?_⟩
  exact (search_noLegalMoves _ 0 (by decide)).2.2.2

/-! ## C3: the history replays to the board -/

theorem getCell_emptyBoard (i : Nat) : getCell emptyBoard i = none := by
  simp only [getCell, emptyBoard, List.getD_eq_getElem?_getD, List.getElem?_replicate]
  split <;> rfl

theorem replay_append (h : List Move) (m : Move) :
    replayBoard (h ++ [m]) = (replayBoard h).set m.index.val (some m.player) := by
  simp [replayBoard, List.foldl_append]

theorem replay_length (h : List Move) : (replayBoard h).length = 9 := by
  suffices H : ∀ (b : Board), (h.foldl (fun b m => b.set m.index.val (some m.player)) b).length = b.length by
    simpa [replayBoard, emptyBoard] using H emptyBoard
  induction h with
  | nil => intro b; rfl
  | cons m t ih => intro b; simp [List.foldl_cons, ih, List.length_set]

theorem getCell_replay_of_not_mem (h : List Move) (i : Nat)
    (hi : i ∉ h.map fun m => m.index.val) :
    getCell (replayBoard h) i = none := by
  induction h using List.reverseRecOn with
  | nil => exact getCell_emptyBoard i
  | append_singleton t m ih =>
    rw [replay_append]
    rw [List.map_append, List.mem_append] at hi
    push_neg at hi
    have hne : i ≠ m.index.val := by
      intro he
      exact hi.2 (by simp [he])
    rw [getCell_set_ne _ _ _ _ hne]
    exact ih hi.1

theorem getCell_replay_of_mem (h : List Move) (i : Nat)
    (hi : i ∈ h.map fun m => m.index.val) :
    ∃ q, getCell (replayBoard h) i = some q := by
  induction h using List.reverseRecOn with
  | nil => simp at hi
  | append_singleton t m ih =>
    rw [replay_append]
    by_cases he : i = m.index.val
    · subst he
      refine ⟨m.player, ?_⟩
      rw [getCell_set_self]
      rw [replay_length]
      exact m.index.isLt
    · rw [getCell_set_ne _ _ _ _ he]
      rw [List.map_append, List.mem_append] at hi
      rcases hi with hi | hi
      · exact ih hi
      · simp at hi
        exact absurd hi he

theorem occupiedCount_set (b : Board) (i : Nat) (p : Player)
    (hi : i < b.length) (hc : getCell b i = none) :
    occupiedCount (b.set i (some p)) = occupiedCount b + 1 := by
  induction b generalizing i with
  | nil => simp at hi
  | cons c rest ih =>
    cases i with
    | zero =>
      rw [getCell_cons_zero] at hc
      subst hc
      simp [occupiedCount, List.filter_cons]
    | succ k =>
      rw [getCell_cons_succ] at hc
      have hk : k < rest.length := by simpa using hi
      have := ih k hk hc
      cases hs : c.isSome <;>
        simp_all [occupiedCount, List.filter_cons, List.set, hs]

theorem occupiedCount_replay (h : List Move)
    (hn : (h.map fun m => m.index.val).Nodup) :
    occupiedCount (replayBoard h) = h.length := by
  induction h using List.reverseRecOn with
  | nil => rfl
  | append_singleton t m ih =>
    rw [List.map_append, List.nodup_append] at hn
    obtain ⟨hn1, _, hd⟩ := hn
    have hnm : (m.index.val : Nat) ∉ t.map fun m => m.index.val := by
      intro hmem
      exact hd hmem (by simp)
    rw [replay_append]
    rw [occupiedCount_set _ _ _ (by rw [replay_length]; exact m.index.isLt)
      (getCell_replay_of_not_mem t _ hnm)]
    simp [ih hn1]

theorem popLoop_inv (n : Nat) (h : List Move) (b : Board)
    (hb : b = replayBoard h) (hn : (h.map fun m => m.index.val).Nodup) :
    (popLoop n h b).2 = replayBoard (popLoop n h b).1 ∧
      ((popLoop n h b).1.map fun m => m.index.val).Nodup := by
  induction n generalizing h b with
  | zero => exact ⟨hb, hn⟩
  | succ k ih =>
    rw [popLoop]
    cases hm : h.getLast? with
    | none => exact ih h b hb hn
    | some m =>
      have hsplit : h.dropLast ++ [m] = h := List.dropLast_append_getLast? m hm
      have hn' : ((h.dropLast ++ [m]).map fun m => m.index.val).Nodup := by
        rw [hsplit]; exact hn
      rw [List.map_append, List.nodup_append] at hn'
      obtain ⟨hn1, _, hd⟩ := hn'
      have hnm : (m.index.val : Nat) ∉ h.dropLast.map fun m => m.index.val := by
        intro hmem
        exact hd hmem (by simp)
      refine ih h.dropLast (b.set m.index.val none) ?_ hn1
      have hbd : b.set m.index.val none = replayBoard h.dropLast := by
        conv_lhs => rw [hb, ← hsplit]
        rw [replay_append, List.set_set]
        exact set_getCell_none _ _ (getCell_replay_of_not_mem _ _ hnm)
      exact hbd

theorem reachable_inv (s : GameState) (hs : Reachable s) :
    s.board = replayBoard s.moveHistory ∧
      (s.moveHistory.map fun m => m.index.val).Nodup := by
  induction hs with
  | init => exact ⟨rfl, List.nodup_nil⟩
  | move s i p _ ih =>
    obtain ⟨hb, hn⟩ := ih
    by_cases hgd : ((getCell s.board i.val).isSome || s.gameOver) = true
    · rw [show makeMove s i p = s from by unfold makeMove; rw [if_pos hgd]]
      exact ⟨hb, hn⟩
    · have hcell : getCell s.board i.val = none := by
        rcases hcv : getCell s.board i.val with _ | q
        · rfl
        · rw [hcv] at hgd
          simp at hgd
      have hnotmem : (i.val : Nat) ∉ s.moveHistory.map fun m => m.index.val := by
        intro hmem
        obtain ⟨q, hq⟩ := getCell_replay_of_mem _ _ hmem
        rw [← hb, hcell] at hq
        exact Option.noConfusion hq
      have hb' : s.board.set i.val (some p) =
          replayBoard (s.moveHistory ++ [(⟨i, p⟩ : Move)]) := by
        rw [replay_append, hb]
      have hn' : ((s.moveHistory ++ [(⟨i, p⟩ : Move)]).map fun m => m.index.val).Nodup := by
        rw [List.map_append, List.nodup_append]
        refine ⟨hn, List.nodup_singleton _, ?_⟩
        intro a ha hb2
        simp at hb2
        subst hb2
        exact hnotmem ha
      have hM : (makeMove s i p).board = s.board.set i.val (some p) ∧
          (makeMove s i p).moveHistory = s.moveHistory ++ [(⟨i, p⟩ : Move)] := by
        unfold makeMove
        rw [if_neg hgd]
        split
        · exact ⟨rfl, rfl⟩
        · split
          · exact ⟨rfl, rfl⟩
          · exact ⟨rfl, rfl⟩
      rw [hM.1, hM.2]
      exact ⟨hb', hn'⟩
  | undo s _ ih =>
    obtain ⟨hb, hn⟩ := ih
    unfold undoMove
    by_cases hgd : (s.moveHistory.length == 0 || s.gameOver) = true
    · rw [if_pos hgd]
      exact ⟨hb, hn⟩
    · rw [if_neg hgd]
      have H := popLoop_inv
        (if s.mode == Mode.vsComputer && s.moveHistory.length > 1 then 2 else 1)
        s.moveHistory s.board hb hn
      exact ⟨H.1, H.2⟩
  | reset s _ ih => exact ⟨rfl, List.nodup_nil⟩

/-- **C3.** In every state reachable by any sequence of `makeMove`,
`undoMove` and `newGame` from the initial state, replaying the recorded
history from an empty board reproduces the board exactly, and the history
length equals the number of occupied cells. -/
theorem history_replays (s : GameState) (hs : Reachable s) :
    replayBoard s.moveHistory = s.board ∧
      s.moveHistory.length = occupiedCount s.board := by
  obtain ⟨hb, hn⟩ := reachable_inv s hs
  refine ⟨hb.symm, ?_⟩
  rw [hb, occupiedCount_replay _ hn]

theorem history_replays_witness :
    replayBoard (makeMove initialState 4 Player.X).moveHistory =
        (makeMove initialState 4 Player.X).board ∧
      (makeMove initialState 4 Player.X).moveHistory.length =
        occupiedCount (makeMove initialState 4 Player.X).board :=
  history_replays _ (Reachable.move initialState 4 Player.X Reachable.init)

/-! ## C8: no board of legal play has two winners -/

theorem getCell_set_rev (b : Board) (i j : Nat) (v : Cell) (q : Player)
    (hv : v ≠ some q) (h : getCell (b.set i v) j = some q) :
    getCell b j = some q := by
  by_cases hij : j = i
  · subst hij
    by_cases hlt : j < b.length
    · rw [getCell_set_self _ _ _ hlt] at h
      exact absurd h hv
    · rw [List.set_eq_of_length_le (by omega)] at h
      exact h
  · rw [getCell_set_ne _ _ _ _ hij] at h
    exact h

theorem checkWin_of_set (b : Board) (i : Nat) (v : Cell) (q : Player)
    (hv : v ≠ some q) (h : checkWinOnBoard (b.set i v) q = true) :
    checkWinOnBoard b q = true := by
  simp only [checkWinOnBoard, List.any_eq_true] at h ⊢
  obtain ⟨c, hc, hcc⟩ := h
  refine ⟨c, hc, ?_⟩
  simp only [Bool.and_eq_true, beq_iff_eq] at hcc ⊢
  exact ⟨⟨getCell_set_rev _ _ _ _ _ hv hcc.1.1, getCell_set_rev _ _ _ _ _ hv hcc.1.2⟩,
    getCell_set_rev _ _ _ _ _ hv hcc.2⟩

theorem popLoop_checkWin (n : Nat) (h : List Move) (b : Board) (q : Player)
    (hw : checkWinOnBoard (popLoop n h b).2 q = true) :
    checkWinOnBoard b q = true := by
  induction n generalizing h b with
  | zero => exact hw
  | succ k ih =>
    rw [popLoop] at hw
    cases hm : h.getLast? with
    | none =>
      rw [hm] at hw
      exact ih h b hw
    | some m =>
      rw [hm] at hw
      exact checkWin_of_set _ _ _ _ (by simp) (ih _ _ hw)

theorem other_ne (p : Player) : p.other ≠ p := by
  cases p <;> decide

theorem reachable_inv8 (s : GameState) (hs : Reachable s) :
    (checkWinOnBoard s.board Player.X = true → s.gameOver = true) ∧
    (checkWinOnBoard s.board Player.O = true → s.gameOver = true) ∧
    ¬(checkWinOnBoard s.board Player.X = true ∧
      checkWinOnBoard s.board Player.O = true) := by
  have hEX : checkWinOnBoard emptyBoard Player.X = false := by decide
  have hEO : checkWinOnBoard emptyBoard Player.O = false := by decide
  induction hs with
  | init =>
    exact ⟨fun h => absurd h (by simp [initialState, hEX]),
      fun h => absurd h (by simp [initialState, hEO]),
      fun h => absurd h.1 (by simp [initialState, hEX])⟩
  | move s i p hr ih =>
    by_cases hgd : ((getCell s.board i.val).isSome || s.gameOver) = true
    · rw [show makeMove s i p = s from by unfold makeMove; rw [if_pos hgd]]
      exact ih
    · have hgo : s.gameOver = false := by
        cases hg : s.gameOver
        · rfl
        · exact absurd (by rw [hg]; simp) hgd
      have hX : checkWinOnBoard s.board Player.X = false := by
        cases hx : checkWinOnBoard s.board Player.X
        · rfl
        · rw [ih.1 hx] at hgo
          exact Bool.noConfusion hgo
      have hO : checkWinOnBoard s.board Player.O = false := by
        cases hx : checkWinOnBoard s.board Player.O
        · rfl
        · rw [ih.2.1 hx] at hgo
          exact Bool.noConfusion hgo
      have hOpp : ∀ q, q ≠ p →
          checkWinOnBoard (s.board.set i.val (some p)) q = false := by
        intro q hq
        cases hc : checkWinOnBoard (s.board.set i.val (some p)) q
        · rfl
        · have := checkWin_of_set s.board i.val (some p) q
            (fun he => hq (by injection he; simp_all)) hc
          cases q
          · rw [hX] at this; exact Bool.noConfusion this
          · rw [hO] at this; exact Bool.noConfusion this
      unfold makeMove
      rw [if_neg hgd]
      split
      · -- mover wins: gameOver := true
        refine ⟨fun _ => rfl, fun _ => rfl, fun hXO => ?_⟩
        cases p
        · have := hOpp Player.O (by decide)
          rw [this] at hXO
          exact Bool.noConfusion hXO.2
        · have := hOpp Player.X (by decide)
          rw [this] at hXO
          exact Bool.noConfusion hXO.1
      · split
        · -- draw: gameOver := true
          next hw _ =>
          refine ⟨fun _ => rfl, fun _ => rfl, fun hXO => ?_⟩
          cases p
          · rw [Bool.not_eq_true] at hw
            rw [hw] at hXO
            exact Bool.noConfusion hXO.1
          · rw [Bool.not_eq_true] at hw
            rw [hw] at hXO
            exact Bool.noConfusion hXO.2
        · -- game continues
          next hw _ =>
          rw [Bool.not_eq_true] at hw
          have hX1 : checkWinOnBoard (s.board.set i.val (some p)) Player.X = false := by
            cases p
            · exact hw
            · exact hOpp Player.X (by decide)
          have hO1 : checkWinOnBoard (s.board.set i.val (some p)) Player.O = false := by
            cases p
            · exact hOpp Player.O (by decide)
            · exact hw
          exact ⟨fun h => absurd h (by simp [hX1]),
            fun h => absurd h (by simp [hO1]),
            fun h => absurd h.1 (by simp [hX1])⟩
  | undo s hr ih =>
    by_cases hgd : (s.moveHistory.length == 0 || s.gameOver) = true
    · rw [show undoMove s = s from by unfold undoMove; rw [if_pos hgd]]
      exact ih
    · have hgo : s.gameOver = false := by
        cases hg : s.gameOver
        · rfl
        · exact absurd (by rw [hg]; simp) hgd
      have hX : checkWinOnBoard s.board Player.X = false := by
        cases hx : checkWinOnBoard s.board Player.X
        · rfl
        · rw [ih.1 hx] at hgo
          exact Bool.noConfusion hgo
      have hO : checkWinOnBoard s.board Player.O = false := by
        cases hx : checkWinOnBoard s.board Player.O
        · rfl
        · rw [ih.2.1 hx] at hgo
          exact Bool.noConfusion hgo
      have hU : ∀ q, checkWinOnBoard s.board q = false →
          checkWinOnBoard (undoMove s).board q = false := by
        intro q hq
        cases hc : checkWinOnBoard (undoMove s).board q
        · rfl
        · have hc' : checkWinOnBoard
              (popLoop (if s.mode == Mode.vsComputer && s.moveHistory.length > 1
                then 2 else 1) s.moveHistory s.board).2 q = true := by
            have hu : (undoMove s).board =
                (popLoop (if s.mode == Mode.vsComputer && s.moveHistory.length > 1
                  then 2 else 1) s.moveHistory s.board).2 := by
              unfold undoMove
              rw [if_neg hgd]
            rw [hu] at hc
            exact hc
          rw [popLoop_checkWin _ _ _ _ hc'] at hq
          exact Bool.noConfusion hq
      have hX' := hU Player.X hX
      have hO' := hU Player.O hO
      exact ⟨fun h => absurd h (by simp [hX']),
        fun h => absurd h (by simp [hO']),
        fun h => absurd h.1 (by simp [hX'])⟩
  | reset s hr ih =>
    exact ⟨fun h => absurd h (by simp [newGame, hEX]),
      fun h => absurd h (by simp [newGame, hEO]),
      fun h => absurd h.1 (by simp [newGame, hEX])⟩

theorem altReachable_reachable (s : GameState) (h : AltReachable s) :
    Reachable s := by
  induction h with
  | init => exact Reachable.init
  | move s i _ ih => exact Reachable.move s i s.currentPlayer ih

/-- **C8.** No state reachable by legal alternating play has a winning
line for both players at once: `checkWinOnBoard` identifies at most one
winner on such boards. -/
theorem no_double_win (s : GameState) (hs : AltReachable s) :
    ¬(checkWinOnBoard s.board Player.X = true ∧
      checkWinOnBoard s.board Player.O = true) :=
  (reachable_inv8 s (altReachable_reachable s hs)).2.2

theorem no_double_win_witness :
    ¬(checkWinOnBoard (makeMove initialState 4 initialState.currentPlayer).board
        Player.X = true ∧
      checkWinOnBoard (makeMove initialState 4 initialState.currentPlayer).board
        Player.O = true) :=
  no_double_win _ (AltReachable.move initialState 4 AltReachable.init)

/-! ## C6: the search restores the board -/

theorem set_set_restore (b : Board) (i : Nat) (p : Player)
    (hc : getCell b i = none) : (b.set i (some p)).set i none = b := by
  rw [List.set_set]
  exact set_getCell_none b i hc

theorem mmLoopG_board (rec : Board → Player → Int → Int → MMResult × Board)
    (hrec : ∀ b p a c, (rec b p a c).2 = b) (cells : List Nat) (b : Board)
    (p : Player) (a c : Int) (acc : List MMove)
    (hcells : ∀ i ∈ cells, getCell b i = none) :
    (mmLoopG rec cells b p a c acc).2 = b := by
  induction cells generalizing b a c acc with
  | nil => rfl
  | cons i rest ih =>
    have hi : getCell b i = none := hcells i (List.mem_cons_self i rest)
    have hrest : ∀ j ∈ rest, getCell b j = none :=
      fun j hj => hcells j (List.mem_cons_of_mem i hj)
    cases p with
    | O =>
      simp only [mmLoopG]
      rw [hrec (b.set i (some Player.O)) Player.X a c,
        set_set_restore b i Player.O hi]
      split
      · rfl
      · exact ih b _ _ _ hrest
    | X =>
      simp only [mmLoopG]
      rw [hrec (b.set i (some Player.X)) Player.O a c,
        set_set_restore b i Player.X hi]
      split
      · rfl
      · exact ih b _ _ _ hrest

theorem minimaxF_board (fuel : Nat) (b : Board) (p : Player) (a c : Int) :
    (minimaxF fuel b p a c).2 = b := by
  induction fuel generalizing b p a c with
  | zero => rfl
  | succ k ih =>
    unfold minimaxF
    split
    · rfl
    · split
      · rfl
      · split
        · rfl
        · split
          next moves b1 heq =>
            have hb1 : b1 = b := by
              have := mmLoopG_board (minimaxF k) ih (emptyCells b) b p a c []
                (fun i hi => ((mem_emptyCells b i).mp hi).2)
              rw [heq] at this
              exact this
            subst hb1
            split
            · rfl
            · rfl

/-- **C6.** The search never changes the caller's board: `minimax`
(as called by `getBestMove`, at any window and for either player) returns
the `currentBoard` buffer exactly equal to its value before the call.
Every interior write is retracted, including when `alpha >= beta`
pruning breaks the sibling loop early. -/
theorem minimax_restores_board (b : Board) (p : Player) (alpha beta : Int) :
    (minimax b p alpha beta).2 = b :=
  minimaxF_board 9 b p alpha beta

/-! ## C7: the selection scan keeps the first extreme, ties go to the
lowest index -/

theorem scanO_stay (ms : List MMove) (s : Int) (best : Option MMove)
    (h : ∀ x ∈ ms, x.score ≤ s) : scanO ms s best = best := by
  induction ms generalizing s best with
  | nil => rfl
  | cons m0 rest ih =>
    rw [scanO, if_neg (by
      have := h m0 (List.mem_cons_self m0 rest)
      omega)]
    exact ih s best fun x hx => h x (List.mem_cons_of_mem m0 hx)

theorem scanO_firstMax (ms : List MMove) (s : Int) (best : Option MMove)
    (hex : ∃ x ∈ ms, s < x.score) :
    ∃ ms1 m ms2, ms = ms1 ++ m :: ms2 ∧ scanO ms s best = some m ∧
      s < m.score ∧ (∀ x ∈ ms1, x.score < m.score) ∧
      ∀ x ∈ ms, x.score ≤ m.score := by
  induction ms generalizing s best with
  | nil => simp at hex
  | cons m0 rest ih =>
    by_cases hc : s < m0.score
    · rw [scanO, if_pos hc]
      by_cases hex2 : ∃ x ∈ rest, m0.score < x.score
      · obtain ⟨ms1, m, ms2, hdec, hscan, hlt, hfirst, hmax⟩ :=
          ih m0.score (some m0) hex2
        refine ⟨m0 :: ms1, m, ms2, by rw [hdec, List.cons_append], hscan, by omega, ?_, ?_⟩
        · intro x hx
          rcases List.mem_cons.mp hx with rfl | hx
          · omega
          · exact hfirst x hx
        · intro x hx
          rcases List.mem_cons.mp hx with rfl | hx
          · omega
          · exact hmax x hx
      · push_neg at hex2
        refine ⟨[], m0, rest, rfl, ?_, hc, by simp, ?_⟩
        · exact scanO_stay rest m0.score (some m0) hex2
        · intro x hx
          rcases List.mem_cons.mp hx with rfl | hx
          · omega
          · exact hex2 x hx
    · rw [scanO, if_neg hc]
      obtain ⟨x0, hx0, hs0⟩ := hex
      have hx0r : x0 ∈ rest := by
        rcases List.mem_cons.mp hx0 with rfl | hx
        · omega
        · exact hx
      obtain ⟨ms1, m, ms2, hdec, hscan, hlt, hfirst, hmax⟩ :=
        ih s best ⟨x0, hx0r, hs0⟩
      refine ⟨m0 :: ms1, m, ms2, by rw [hdec, List.cons_append], hscan, hlt, ?_, ?_⟩
      · intro x hx
        rcases List.mem_cons.mp hx with rfl | hx
        · omega
        · exact hfirst x hx
      · intro x hx
        rcases List.mem_cons.mp hx with rfl | hx
        · omega
        · exact hmax x hx

theorem scanX_stay (ms : List MMove) (s : Int) (best : Option MMove)
    (h : ∀ x ∈ ms, s ≤ x.score) : scanX ms s best = best := by
  induction ms generalizing s best with
  | nil => rfl
  | cons m0 rest ih =>
    rw [scanX, if_neg (by
      have := h m0 (List.mem_cons_self m0 rest)
      omega)]
    exact ih s best fun x hx => h x (List.mem_cons_of_mem m0 hx)

theorem scanX_firstMin (ms : List MMove) (s : Int) (best : Option MMove)
    (hex : ∃ x ∈ ms, x.score < s) :
    ∃ ms1 m ms2, ms = ms1 ++ m :: ms2 ∧ scanX ms s best = some m ∧
      m.score < s ∧ (∀ x ∈ ms1, m.score < x.score) ∧
      ∀ x ∈ ms, m.score ≤ x.score := by
  induction ms generalizing s best with
  | nil => simp at hex
  | cons m0 rest ih =>
    by_cases hc : m0.score < s
    · rw [scanX, if_pos hc]
      by_cases hex2 : ∃ x ∈ rest, x.score < m0.score
      · obtain ⟨ms1, m, ms2, hdec, hscan, hlt, hfirst, hmin⟩ :=
          ih m0.score (some m0) hex2
        refine ⟨m0 :: ms1, m, ms2, by rw [hdec, List.cons_append], hscan, by omega, ?_, ?_⟩
        · intro x hx
          rcases List.mem_cons.mp hx with rfl | hx
          · omega
          · exact hfirst x hx
        · intro x hx
          rcases List.mem_cons.mp hx with rfl | hx
          · omega
          · exact hmin x hx
      · push_neg at hex2
        refine ⟨[], m0, rest, rfl, ?_, hc, by simp, ?_⟩
        · exact scanX_stay rest m0.score (some m0) hex2
        · intro x hx
          rcases List.mem_cons.mp hx with rfl | hx
          · omega
          · exact hex2 x hx
    · rw [scanX, if_neg hc]
      obtain ⟨x0, hx0, hs0⟩ := hex
      have hx0r : x0 ∈ rest := by
        rcases List.mem_cons.mp hx0 with rfl | hx
        · omega
        · exact hx
      obtain ⟨ms1, m, ms2, hdec, hscan, hlt, hfirst, hmin⟩ :=
        ih s best ⟨x0, hx0r, hs0⟩
      refine ⟨m0 :: ms1, m, ms2, by rw [hdec, List.cons_append], hscan, hlt, ?_, ?_⟩
      · intro x hx
        rcases List.mem_cons.mp hx with rfl | hx
        · omega
        · exact hfirst x hx
      · intro x hx
        rcases List.mem_cons.mp hx with rfl | hx
        · omega
        · exact hmin x hx

theorem scanO_mem (ms : List MMove) (s : Int) (best : Option MMove) (m : MMove)
    (h : scanO ms s best = some m) : m ∈ ms ∨ best = some m := by
  induction ms generalizing s best with
  | nil => exact Or.inr h
  | cons m0 rest ih =>
    rw [scanO] at h
    split at h
    · rcases ih _ _ h with hm | hm
      · exact Or.inl (List.mem_cons_of_mem m0 hm)
      · refine Or.inl ?_
        rw [List.mem_cons]
        left
        injection hm with hmm
        exact hmm.symm
    · rcases ih _ _ h with hm | hm
      · exact Or.inl (List.mem_cons_of_mem m0 hm)
      · exact Or.inr hm

theorem scanX_mem (ms : List MMove) (s : Int) (best : Option MMove) (m : MMove)
    (h : scanX ms s best = some m) : m ∈ ms ∨ best = some m := by
  induction ms generalizing s best with
  | nil => exact Or.inr h
  | cons m0 rest ih =>
    rw [scanX] at h
    split at h
    · rcases ih _ _ h with hm | hm
      · exact Or.inl (List.mem_cons_of_mem m0 hm)
      · refine Or.inl ?_
        rw [List.mem_cons]
        left
        injection hm with hmm
        exact hmm.symm
    · rcases ih _ _ h with hm | hm
      · exact Or.inl (List.mem_cons_of_mem m0 hm)
      · exact Or.inr hm

theorem mmLoopG_scores (rec : Board → Player → Int → Int → MMResult × Board)
    (hrec : ∀ b p a c, -10 ≤ (rec b p a c).1.score ∧ (rec b p a c).1.score ≤ 10)
    (cells : List Nat) (b : Board) (p : Player) (a c : Int) (acc : List MMove)
    (hacc : ∀ x ∈ acc, -10 ≤ x.score ∧ x.score ≤ 10) :
    ∀ x ∈ (mmLoopG rec cells b p a c acc).1, -10 ≤ x.score ∧ x.score ≤ 10 := by
  induction cells generalizing b a c acc with
  | nil => exact hacc
  | cons i rest ih =>
    cases p with
    | O =>
      simp only [mmLoopG]
      have hpush : ∀ x ∈ acc ++ [(⟨i, (rec (b.set i (some Player.O)) Player.X a c).1.score⟩ : MMove)],
          -10 ≤ x.score ∧ x.score ≤ 10 := by
        intro x hx
        rcases List.mem_append.mp hx with hx | hx
        · exact hacc x hx
        · rw [List.mem_singleton] at hx
          subst hx
          exact hrec _ _ _ _
      split
      · exact hpush
      · exact ih _ _ _ _ hpush
    | X =>
      simp only [mmLoopG]
      have hpush : ∀ x ∈ acc ++ [(⟨i, (rec (b.set i (some Player.X)) Player.O a c).1.score⟩ : MMove)],
          -10 ≤ x.score ∧ x.score ≤ 10 := by
        intro x hx
        rcases List.mem_append.mp hx with hx | hx
        · exact hacc x hx
        · rw [List.mem_singleton] at hx
          subst hx
          exact hrec _ _ _ _
      split
      · exact hpush
      · exact ih _ _ _ _ hpush

theorem minimaxF_score_bounds (fuel : Nat) (b : Board) (p : Player) (a c : Int) :
    -10 ≤ (minimaxF fuel b p a c).1.score ∧ (minimaxF fuel b p a c).1.score ≤ 10 := by
  induction fuel generalizing b p a c with
  | zero => exact ⟨by norm_num [minimaxF], by norm_num [minimaxF]⟩
  | succ k ih =>
    unfold minimaxF
    split
    · norm_num
    · split
      · norm_num
      · split
        · norm_num
        · split
          next moves b1 heq =>
            have hmv : ∀ x ∈ moves, -10 ≤ x.score ∧ x.score ≤ 10 := by
              intro x hx
              have := mmLoopG_scores (minimaxF k) (fun b p a c => ih b p a c)
                (emptyCells b) b p a c [] (by simp)
              have hx' : x ∈ (mmLoopG (minimaxF k) (emptyCells b) b p a c []).1 := by
                rw [heq]
                exact hx
              exact this x hx'
            split
            next m hsel =>
              have hm : m ∈ moves := by
                rcases p with _ | _
                · rcases scanX_mem moves posInf none m hsel with h | h
                  · exact h
                  · exact Option.noConfusion h
                · rcases scanO_mem moves negInf none m hsel with h | h
                  · exact h
                  · exact Option.noConfusion h
              exact hmv m hm
            · norm_num

theorem mmLoopG_moves (rec : Board → Player → Int → Int → MMResult × Board)
    (cells : List Nat) (b : Board) (p : Player) (a c : Int) (acc : List MMove) :
    ∃ ms, (mmLoopG rec cells b p a c acc).1 = acc ++ ms ∧
      ms.map (fun x => x.index) = cells.take ms.length ∧
      (cells ≠ [] → ms ≠ []) := by
  induction cells generalizing b p a c acc with
  | nil => exact ⟨[], by simp [mmLoopG], by simp, fun h => absurd rfl h⟩
  | cons i rest ih =>
    cases p with
    | O =>
      simp only [mmLoopG]
      split
      · refine ⟨[⟨i, (rec (b.set i (some Player.O)) Player.X a c).1.score⟩],
          rfl, by simp, fun _ => by simp⟩
      · obtain ⟨ms, h1, h2, _⟩ := ih _ Player.O _ _
          (acc ++ [(⟨i, (rec (b.set i (some Player.O)) Player.X a c).1.score⟩ : MMove)])
        refine ⟨⟨i, (rec (b.set i (some Player.O)) Player.X a c).1.score⟩ :: ms,
          by rw [h1, List.append_assoc, List.singleton_append], ?_, fun _ => by simp⟩
        simp only [List.map_cons, List.length_cons, List.take_succ_cons, h2]
    | X =>
      simp only [mmLoopG]
      split
      · refine ⟨[⟨i, (rec (b.set i (some Player.X)) Player.O a c).1.score⟩],
          rfl, by simp, fun _ => by simp⟩
      · obtain ⟨ms, h1, h2, _⟩ := ih _ Player.X _ _
          (acc ++ [(⟨i, (rec (b.set i (some Player.X)) Player.O a c).1.score⟩ : MMove)])
        refine ⟨⟨i, (rec (b.set i (some Player.X)) Player.O a c).1.score⟩ :: ms,
          by rw [h1, List.append_assoc, List.singleton_append], ?_, fun _ => by simp⟩
        simp only [List.map_cons, List.length_cons, List.take_succ_cons, h2]

theorem emptyIdx_sorted (b : Board) : List.Pairwise (· < ·) (emptyIdx b) := by
  induction b with
  | nil => exact List.Pairwise.nil
  | cons c rest ih =>
    have hmap : List.Pairwise (· < ·) ((emptyIdx rest).map (· + 1)) := by
      rw [List.pairwise_map]
      exact ih.imp (by omega)
    cases c with
    | none =>
      rw [emptyIdx_none]
      rw [List.pairwise_cons]
      refine ⟨?_, hmap⟩
      intro x hx
      rw [List.mem_map] at hx
      obtain ⟨y, _, rfl⟩ := hx
      omega
    | some p =>
      rw [emptyIdx_some]
      exact hmap

theorem emptyCells_sorted (b : Board) : List.Pairwise (· < ·) (emptyCells b) := by
  rw [emptyCells_eq_emptyIdx]
  exact emptyIdx_sorted b

theorem minimax_root_selection_aux (b : Board) (p : Player) (alpha beta : Int)
    (hne : emptyCells b ≠ [])
    (hX : checkWinOnBoard b Player.X = false)
    (hO : checkWinOnBoard b Player.O = false) :
    ∃ ms1 m ms2,
      (mmLoopG (minimaxF 8) (emptyCells b) b p alpha beta []).1 =
          ms1 ++ m :: ms2 ∧
      (minimax b p alpha beta).1 = ⟨m.score, some m.index⟩ ∧
      ((ms1 ++ m :: ms2).map fun x => x.index) =
        (emptyCells b).take (ms1 ++ m :: ms2).length ∧
      List.Pairwise (· < ·) ((ms1 ++ m :: ms2).map fun x => x.index) ∧
      (p = Player.O →
        (∀ x ∈ ms1, x.score < m.score) ∧
          ∀ x ∈ ms1 ++ m :: ms2, x.score ≤ m.score) ∧
      (p = Player.X →
        (∀ x ∈ ms1, m.score < x.score) ∧
          ∀ x ∈ ms1 ++ m :: ms2, m.score ≤ x.score) ∧
      (∀ x ∈ ms1 ++ m :: ms2, x.score = m.score → m.index ≤ x.index) := by
  obtain ⟨ms, hms, hmap, hne'⟩ :=
    mmLoopG_moves (minimaxF 8) (emptyCells b) b p alpha beta []
  rw [List.nil_append] at hms
  have hbounds : ∀ x ∈ ms, -10 ≤ x.score ∧ x.score ≤ 10 := by
    intro x hx
    exact mmLoopG_scores (minimaxF 8) (fun b p a c => minimaxF_score_bounds 8 b p a c)
      (emptyCells b) b p alpha beta [] (by simp) x (by rw [hms]; exact hx)
  have hmsne : ms ≠ [] := hne' hne
  have hbe : (emptyCells b == []) = false := by
    rw [beq_eq_false_iff_ne]
    exact hne
  obtain ⟨x0, hx0⟩ := List.exists_mem_of_ne_nil ms hmsne
  have hsorted : List.Pairwise (· < ·) (ms.map fun x => x.index) := by
    rw [hmap]
    exact (emptyCells_sorted b).sublist (List.take_sublist _ _)
  cases p with
  | O =>
    have hex : ∃ x ∈ ms, negInf < x.score :=
      ⟨x0, hx0, by have := (hbounds x0 hx0).1; unfold negInf; omega⟩
    obtain ⟨ms1, m, ms2, hdec, hscan, _, hfirst, hmax⟩ :=
      scanO_firstMax ms negInf none hex
    have hresult : (minimax b Player.O alpha beta).1 = ⟨m.score, some m.index⟩ := by
      show (minimaxF 9 b Player.O alpha beta).1 = _
      rw [show (9 : Nat) = 8 + 1 from rfl]
      unfold minimaxF
      rw [if_neg (by simp [hX]), if_neg (by simp [hO]), if_neg (by simp [hbe])]
      have : (mmLoopG (minimaxF 8) (emptyCells b) b Player.O alpha beta []).1 = ms := hms
      simp only [this]
      rw [show selectO ms = some m from hscan]
    refine ⟨ms1, m, ms2, by rw [hms, hdec], hresult,
      by rw [← hdec]; exact hmap, by rw [← hdec]; exact hsorted,
      fun _ => ⟨hfirst, hdec ▸ hmax⟩, fun hpx => Player.noConfusion hpx, ?_⟩
    intro x hx hsc
    rcases List.mem_append.mp hx with hx1 | hx2
    · have := hfirst x hx1
      omega
    · rcases List.mem_cons.mp hx2 with rfl | hx2
      · exact Nat.le_refl _
      · have hp : List.Pairwise (· < ·)
            ((ms1.map fun x => x.index) ++
              (m.index :: ms2.map fun x => x.index)) := by
          have := hsorted
          rw [hdec, List.map_append, List.map_cons] at this
          exact this
        have hcons : List.Pairwise (· < ·) (m.index :: ms2.map fun x => x.index) :=
          hp.sublist (List.sublist_append_right _ _)
        rw [List.pairwise_cons] at hcons
        exact Nat.le_of_lt (hcons.1 x.index (List.mem_map.mpr ⟨x, hx2, rfl⟩))
  | X =>
    have hex : ∃ x ∈ ms, x.score < posInf :=
      ⟨x0, hx0, by have := (hbounds x0 hx0).2; unfold posInf; omega⟩
    obtain ⟨ms1, m, ms2, hdec, hscan, _, hfirst, hmin⟩ :=
      scanX_firstMin ms posInf none hex
    have hresult : (minimax b Player.X alpha beta).1 = ⟨m.score, some m.index⟩ := by
      show (minimaxF 9 b Player.X alpha beta).1 = _
      rw [show (9 : Nat) = 8 + 1 from rfl]
      unfold minimaxF
      rw [if_neg (by simp [hX]), if_neg (by simp [hO]), if_neg (by simp [hbe])]
      have : (mmLoopG (minimaxF 8) (emptyCells b) b Player.X alpha beta []).1 = ms := hms
      simp only [this]
      rw [show selectX ms = some m from hscan]
    refine ⟨ms1, m, ms2, by rw [hms, hdec], hresult,
      by rw [← hdec]; exact hmap, by rw [← hdec]; exact hsorted,
      fun hpx => Player.noConfusion hpx, fun _ => ⟨hfirst, hdec ▸ hmin⟩, ?_⟩
    intro x hx hsc
    rcases List.mem_append.mp hx with hx1 | hx2
    · have := hfirst x hx1
      omega
    · rcases List.mem_cons.mp hx2 with rfl | hx2
      · exact Nat.le_refl _
      · have hp : List.Pairwise (· < ·)
            ((ms1.map fun x => x.index) ++
              (m.index :: ms2.map fun x => x.index)) := by
          have := hsorted
          rw [hdec, List.map_append, List.map_cons] at this
          exact this
        have hcons : List.Pairwise (· < ·) (m.index :: ms2.map fun x => x.index) :=
          hp.sublist (List.sublist_append_right _ _)
        rw [List.pairwise_cons] at hcons
        exact Nat.le_of_lt (hcons.1 x.index (List.mem_map.mpr ⟨x, hx2, rfl⟩))

/-- **C7.** At the root of the search on a non-terminal board, the moves
the loop records enumerate the empty cells in ascending index order (a
prefix of them, when pruning breaks early), and the returned move is the
first fully-evaluated move achieving the extreme recorded score — the
maximum for O, the minimum for X, with ties resolved to the lowest index
by the strict comparisons of the selection scan. -/
theorem minimax_root_selection (b : Board) (p : Player) (alpha beta : Int)
    (hne : emptyCells b ≠ [])
    (hX : checkWinOnBoard b Player.X = false)
    (hO : checkWinOnBoard b Player.O = false) :
    ∃ ms1 m ms2,
      (mmLoopG (minimaxF 8) (emptyCells b) b p alpha beta []).1 =
          ms1 ++ m :: ms2 ∧
      (minimax b p alpha beta).1 = ⟨m.score, some m.index⟩ ∧
      ((ms1 ++ m :: ms2).map fun x => x.index) =
        (emptyCells b).take (ms1 ++ m :: ms2).length ∧
      List.Pairwise (· < ·) ((ms1 ++ m :: ms2).map fun x => x.index) ∧
      (p = Player.O →
        (∀ x ∈ ms1, x.score < m.score) ∧
          ∀ x ∈ ms1 ++ m :: ms2, x.score ≤ m.score) ∧
      (p = Player.X →
        (∀ x ∈ ms1, m.score < x.score) ∧
          ∀ x ∈ ms1 ++ m :: ms2, m.score ≤ x.score) ∧
      (∀ x ∈ ms1 ++ m :: ms2, x.score = m.score → m.index ≤ x.index) :=
  minimax_root_selection_aux b p alpha beta hne hX hO

theorem minimax_root_selection_witness :
    ∃ ms1 m ms2,
      (mmLoopG (minimaxF 8)
          (emptyCells [some Player.X, some Player.O, some Player.X,
            some Player.O, some Player.O, some Player.X, none, none, none])
          [some Player.X, some Player.O, some Player.X,
            some Player.O, some Player.O, some Player.X, none, none, none]
          Player.O negInf posInf []).1 = ms1 ++ m :: ms2 ∧
      (minimax [some Player.X, some Player.O, some Player.X,
            some Player.O, some Player.O, some Player.X, none, none, none]
          Player.O negInf posInf).1 = ⟨m.score, some m.index⟩ ∧
      ((ms1 ++ m :: ms2).map fun x => x.index) =
        (emptyCells [some Player.X, some Player.O, some Player.X,
          some Player.O, some Player.O, some Player.X, none, none, none]).take
          (ms1 ++ m :: ms2).length ∧
      List.Pairwise (· < ·) ((ms1 ++ m :: ms2).map fun x => x.index) ∧
      (Player.O = Player.O →
        (∀ x ∈ ms1, x.score < m.score) ∧
          ∀ x ∈ ms1 ++ m :: ms2, x.score ≤ m.score) ∧
      (Player.O = Player.X →
        (∀ x ∈ ms1, m.score < x.score) ∧
          ∀ x ∈ ms1 ++ m :: ms2, m.score ≤ x.score) ∧
      (∀ x ∈ ms1 ++ m :: ms2, x.score = m.score → m.index ≤ x.index) :=
  minimax_root_selection
    [some Player.X, some Player.O, some Player.X,
      some Player.O, some Player.O, some Player.X, none, none, none]
    Player.O negInf posInf (by decide) (by decide) (by decide)

/-! ## C1, step 1: the packed primitives agree with the board primitives -/

theorem xmask_lt (b : Board) : xmask b < 2 ^ b.length := by
  induction b with
  | nil => simp [xmask]
  | cons c rest ih =>
    rw [xmask, List.length_cons, Nat.pow_succ]
    cases hc : (c == some Player.X) <;> simp [hc] <;> omega

theorem omask_lt (b : Board) : omask b < 2 ^ b.length := by
  induction b with
  | nil => simp [omask]
  | cons c rest ih =>
    rw [omask, List.length_cons, Nat.pow_succ]
    cases hc : (c == some Player.O) <;> simp [hc] <;> omega

theorem encodeBM_mod (b : Board) (hb : b.length = 9) :
    encodeBM b % 512 = xmask b := by
  have hx : xmask b < 512 := by
    have := xmask_lt b
    rw [hb] at this
    exact this
  rw [encodeBM, Nat.add_mul_mod_self_left, Nat.mod_eq_of_lt hx]

theorem encodeBM_div (b : Board) (hb : b.length = 9) :
    encodeBM b / 512 = omask b := by
  have hx : xmask b < 512 := by
    have := xmask_lt b
    rw [hb] at this
    exact this
  rw [encodeBM, Nat.add_mul_div_left _ _ (by omega : 0 < 512),
    Nat.div_eq_of_lt hx, Nat.zero_add]

theorem bitAt_zero_mask (i : Nat) : bitAt 0 i = false := by
  simp [bitAt]

theorem bitAt_step (m s i : Nat) (hs : s < 2) :
    bitAt (2 * m + s) (i + 1) = bitAt m i := by
  simp only [bitAt]
  have h1 : (2 * m + s) >>> (i + 1) = m >>> i := by
    rw [Nat.shiftRight_succ_inside]
    congr 1
    omega
  rw [h1]

theorem bitAt_head (m s : Nat) (hs : s < 2) : bitAt (2 * m + s) 0 = (s == 1) := by
  simp only [bitAt, Nat.shiftRight_zero, Nat.mul_add_mod]
  rw [Nat.mod_eq_of_lt hs]

theorem getCell_nil (i : Nat) : getCell [] i = none := by
  simp [getCell, List.getD]

theorem bitAt_xmask (b : Board) (i : Nat) :
    bitAt (xmask b) i = (getCell b i == some Player.X) := by
  induction b generalizing i with
  | nil => rw [show xmask [] = 0 from rfl, bitAt_zero_mask, getCell_nil]; rfl
  | cons c rest ih =>
    have hs : (if c == some Player.X then 1 else 0) < 2 := by split <;> omega
    cases i with
    | zero =>
      rw [show xmask (c :: rest) =
          2 * xmask rest + (if c == some Player.X then 1 else 0) from rfl,
        bitAt_head _ _ hs, getCell_cons_zero]
      cases hc : (c == some Player.X) <;> simp [hc]
    | succ k =>
      rw [show xmask (c :: rest) =
          2 * xmask rest + (if c == some Player.X then 1 else 0) from rfl,
        bitAt_step _ _ _ hs, getCell_cons_succ]
      exact ih k

theorem bitAt_omask (b : Board) (i : Nat) :
    bitAt (omask b) i = (getCell b i == some Player.O) := by
  induction b generalizing i with
  | nil => rw [show omask [] = 0 from rfl, bitAt_zero_mask, getCell_nil]; rfl
  | cons c rest ih =>
    have hs : (if c == some Player.O then 1 else 0) < 2 := by split <;> omega
    cases i with
    | zero =>
      rw [show omask (c :: rest) =
          2 * omask rest + (if c == some Player.O then 1 else 0) from rfl,
        bitAt_head _ _ hs, getCell_cons_zero]
      cases hc : (c == some Player.O) <;> simp [hc]
    | succ k =>
      rw [show omask (c :: rest) =
          2 * omask rest + (if c == some Player.O then 1 else 0) from rfl,
        bitAt_step _ _ _ hs, getCell_cons_succ]
      exact ih k

set_option maxRecDepth 4000 in
theorem winFormula_table (m : Nat) (hm : m < 512) :
    bitAt winTable m = winFormula m := by
  revert hm
  revert m
  decide

theorem winFormula_checkWinX (b : Board) :
    winFormula (xmask b) = checkWinOnBoard b Player.X := by
  simp only [winFormula, bitAt_xmask, checkWinOnBoard, winPatterns, List.any_cons,
    List.any_nil]

theorem winFormula_checkWinO (b : Board) :
    winFormula (omask b) = checkWinOnBoard b Player.O := by
  simp only [winFormula, bitAt_omask, checkWinOnBoard, winPatterns, List.any_cons,
    List.any_nil]

theorem winTBX_eq (b : Board) (hb : b.length = 9) :
    winTBX (encodeBM b) = checkWinOnBoard b Player.X := by
  rw [winTBX, encodeBM_mod b hb,
    winFormula_table _ (by have := xmask_lt b; rw [hb] at this; exact this),
    winFormula_checkWinX]

theorem winTBO_eq (b : Board) (hb : b.length = 9) :
    winTBO (encodeBM b) = checkWinOnBoard b Player.O := by
  rw [winTBO, encodeBM_div b hb,
    winFormula_table _ (by have := omask_lt b; rw [hb] at this; exact this),
    winFormula_checkWinO]

theorem cellsGo_spec (b : Board) (pos : Nat) :
    cellsGo b.length pos (xmask b) (omask b) = (emptyIdx b).map (· + pos) := by
  induction b generalizing pos with
  | nil => rfl
  | cons c rest ih =>
    have hxs : (if c == some Player.X then 1 else 0) < 2 := by split <;> omega
    have hos : (if c == some Player.O then 1 else 0) < 2 := by split <;> omega
    have hxmod : xmask (c :: rest) % 2 = (if c == some Player.X then 1 else 0) := by
      rw [show xmask (c :: rest) =
        2 * xmask rest + (if c == some Player.X then 1 else 0) from rfl,
        Nat.mul_add_mod, Nat.mod_eq_of_lt hxs]
    have homod : omask (c :: rest) % 2 = (if c == some Player.O then 1 else 0) := by
      rw [show omask (c :: rest) =
        2 * omask rest + (if c == some Player.O then 1 else 0) from rfl,
        Nat.mul_add_mod, Nat.mod_eq_of_lt hos]
    have hxdiv : xmask (c :: rest) / 2 = xmask rest := by
      rw [show xmask (c :: rest) =
        2 * xmask rest + (if c == some Player.X then 1 else 0) from rfl,
        Nat.mul_add_div (by omega), Nat.div_eq_of_lt hxs, Nat.add_zero]
    have hodiv : omask (c :: rest) / 2 = omask rest := by
      rw [show omask (c :: rest) =
        2 * omask rest + (if c == some Player.O then 1 else 0) from rfl,
        Nat.mul_add_div (by omega), Nat.div_eq_of_lt hos, Nat.add_zero]
    rw [List.length_cons, cellsGo, hxmod, homod, hxdiv, hodiv]
    cases c with
    | none =>
      rw [if_pos (by decide), emptyIdx_none, List.map_cons, ih (pos + 1),
        map_add_add]
      simp
    | some p =>
      cases p with
      | X =>
        rw [if_neg (by decide), emptyIdx_some, ih (pos + 1), map_add_add]
      | O =>
        rw [if_neg (by decide), emptyIdx_some, ih (pos + 1), map_add_add]

theorem cellsBM_eq (b : Board) (hb : b.length = 9) :
    cellsBM (encodeBM b) = emptyCells b := by
  rw [cellsBM, encodeBM_mod b hb, encodeBM_div b hb, emptyCells_eq_emptyIdx]
  have h := cellsGo_spec b 0
  rw [hb, map_add_zero_id] at h
  exact h

theorem xmask_set_X (b : Board) (i : Nat) (hi : i < b.length)
    (hc : getCell b i = none) :
    xmask (b.set i (some Player.X)) = xmask b + 2 ^ i := by
  induction b generalizing i with
  | nil => simp at hi
  | cons c rest ih =>
    cases i with
    | zero =>
      rw [getCell_cons_zero] at hc
      subst hc
      show 2 * xmask rest + 1 = 2 * xmask rest + 0 + 2 ^ 0
      omega
    | succ k =>
      rw [getCell_cons_succ] at hc
      show 2 * xmask (rest.set k (some Player.X)) +
          (if c == some Player.X then 1 else 0) =
        2 * xmask rest + (if c == some Player.X then 1 else 0) + 2 ^ (k + 1)
      rw [ih k (by simpa using hi) hc, Nat.pow_succ]
      omega

theorem omask_set_X (b : Board) (i : Nat) (hc : getCell b i = none) :
    omask (b.set i (some Player.X)) = omask b := by
  induction b generalizing i with
  | nil => rfl
  | cons c rest ih =>
    cases i with
    | zero =>
      rw [getCell_cons_zero] at hc
      subst hc
      rfl
    | succ k =>
      rw [getCell_cons_succ] at hc
      show 2 * omask (rest.set k (some Player.X)) +
          (if c == some Player.O then 1 else 0) =
        2 * omask rest + (if c == some Player.O then 1 else 0)
      rw [ih k hc]

theorem omask_set_O (b : Board) (i : Nat) (hi : i < b.length)
    (hc : getCell b i = none) :
    omask (b.set i (some Player.O)) = omask b + 2 ^ i := by
  induction b generalizing i with
  | nil => simp at hi
  | cons c rest ih =>
    cases i with
    | zero =>
      rw [getCell_cons_zero] at hc
      subst hc
      show 2 * omask rest + 1 = 2 * omask rest + 0 + 2 ^ 0
      omega
    | succ k =>
      rw [getCell_cons_succ] at hc
      show 2 * omask (rest.set k (some Player.O)) +
          (if c == some Player.O then 1 else 0) =
        2 * omask rest + (if c == some Player.O then 1 else 0) + 2 ^ (k + 1)
      rw [ih k (by simpa using hi) hc, Nat.pow_succ]
      omega

theorem xmask_set_O (b : Board) (i : Nat) (hc : getCell b i = none) :
    xmask (b.set i (some Player.O)) = xmask b := by
  induction b generalizing i with
  | nil => rfl
  | cons c rest ih =>
    cases i with
    | zero =>
      rw [getCell_cons_zero] at hc
      subst hc
      rfl
    | succ k =>
      rw [getCell_cons_succ] at hc
      show 2 * xmask (rest.set k (some Player.O)) +
          (if c == some Player.X then 1 else 0) =
        2 * xmask rest + (if c == some Player.X then 1 else 0)
      rw [ih k hc]

theorem encodeBM_set_X (b : Board) (i : Nat) (hb : b.length = 9) (hi : i < 9)
    (hc : getCell b i = none) :
    encodeBM (b.set i (some Player.X)) = encodeBM b + (1 <<< i) := by
  rw [encodeBM, encodeBM, xmask_set_X b i (by omega) hc, omask_set_X b i hc,
    Nat.one_shiftLeft]
  omega

theorem encodeBM_set_O (b : Board) (i : Nat) (hb : b.length = 9) (hi : i < 9)
    (hc : getCell b i = none) :
    encodeBM (b.set i (some Player.O)) = encodeBM b + (1 <<< i) * 512 := by
  rw [encodeBM, encodeBM, xmask_set_O b i hc, omask_set_O b i (by omega) hc,
    Nat.one_shiftLeft]
  ring

/-! ## C1, step 2: score shifting and scan states -/

theorem shiftScore_le (a c : Int) (ha : -1000 ≤ a) (hc : -1000 ≤ c) :
    (shiftScore a ≤ shiftScore c) = (a ≤ c) := by
  simp only [shiftScore]
  by_cases h : a ≤ c <;> simp [h] <;> omega

theorem shiftScore_lt (a c : Int) (ha : -1000 ≤ a) (hc : -1000 ≤ c) :
    (shiftScore a < shiftScore c) = (a < c) := by
  simp only [shiftScore]
  by_cases h : a < c <;> simp [h] <;> omega

theorem shiftScore_max (a c : Int) (ha : -1000 ≤ a) (hc : -1000 ≤ c) :
    shiftScore (max a c) = max (shiftScore a) (shiftScore c) := by
  rcases le_total a c with h | h
  · rw [max_eq_right h, Nat.max_eq_right]
    rw [shiftScore_le a c ha hc]
    exact h
  · rw [max_eq_left h, Nat.max_eq_left]
    rw [shiftScore_le c a hc ha]
    exact h

theorem shiftScore_min (a c : Int) (ha : -1000 ≤ a) (hc : -1000 ≤ c) :
    shiftScore (min a c) = min (shiftScore a) (shiftScore c) := by
  rcases le_total a c with h | h
  · rw [min_eq_left h, Nat.min_eq_left]
    rw [shiftScore_le a c ha hc]
    exact h
  · rw [min_eq_right h, Nat.min_eq_right]
    rw [shiftScore_le c a hc ha]
    exact h

theorem scanO_eq_st (ms : List MMove) (s : Int) (best : Option MMove) :
    scanO ms s best = (scanStO ms s best).2 := by
  induction ms generalizing s best with
  | nil => rfl
  | cons m rest ih =>
    rw [scanO, scanStO]
    split
    · exact ih _ _
    · exact ih _ _

theorem scanX_eq_st (ms : List MMove) (s : Int) (best : Option MMove) :
    scanX ms s best = (scanStX ms s best).2 := by
  induction ms generalizing s best with
  | nil => rfl
  | cons m rest ih =>
    rw [scanX, scanStX]
    split
    · exact ih _ _
    · exact ih _ _

theorem scanStO_append (xs ys : List MMove) (s : Int) (best : Option MMove) :
    scanStO (xs ++ ys) s best =
      scanStO ys (scanStO xs s best).1 (scanStO xs s best).2 := by
  induction xs generalizing s best with
  | nil => rfl
  | cons m rest ih =>
    rw [List.cons_append, scanStO, scanStO]
    split
    · exact ih _ _
    · exact ih _ _

theorem scanStX_append (xs ys : List MMove) (s : Int) (best : Option MMove) :
    scanStX (xs ++ ys) s best =
      scanStX ys (scanStX xs s best).1 (scanStX xs s best).2 := by
  induction xs generalizing s best with
  | nil => rfl
  | cons m rest ih =>
    rw [List.cons_append, scanStX, scanStX]
    split
    · exact ih _ _
    · exact ih _ _

/-! ## C1, step 3: the packed search equals the faithful search -/

theorem mmGoBM_eq_O
    (recL : Board → Player → Int → Int → MMResult × Board)
    (recN : Nat → Player → Nat → Nat → MMResultN)
    (hrec : ∀ b' p' a' c', b'.length = 9 → -1000 ≤ a' → a' ≤ 1000 →
      -1000 ≤ c' → c' ≤ 1000 →
      recN (encodeBM b') p' (shiftScore a') (shiftScore c') =
        ⟨shiftScore (recL b' p' a' c').1.score, (recL b' p' a' c').1.index⟩)
    (hrecF : ∀ b' p' a' c', (recL b' p' a' c').2 = b')
    (hrecB : ∀ b' p' a' c', -10 ≤ (recL b' p' a' c').1.score ∧
      (recL b' p' a' c').1.score ≤ 10) :
    ∀ (cells : List Nat) (b : Board), b.length = 9 →
      (∀ i ∈ cells, i < 9 ∧ getCell b i = none) →
      ∀ (alpha beta : Int), -1000 ≤ alpha → alpha ≤ 1000 →
        -1000 ≤ beta → beta ≤ 1000 →
      ∀ (acc : List MMove) (bs : Int) (bestL : Option MMove),
        -1000 ≤ bs → bs ≤ 1000 →
        scanStO acc negInf none = (bs, bestL) →
        mmGoBM recN cells (encodeBM b) Player.O (shiftScore alpha)
            (shiftScore beta) (shiftScore bs) (Option.map shiftMM bestL) =
          Option.map shiftMM
            (scanO (mmLoopG recL cells b Player.O alpha beta acc).1
              negInf none) := by
  intro cells
  induction cells with
  | nil =>
    intro b hb hcells alpha beta ha1 ha2 hc1 hc2 acc bs bestL hbs1 hbs2 hstate
    have h1 : mmGoBM recN [] (encodeBM b) Player.O (shiftScore alpha)
        (shiftScore beta) (shiftScore bs) (Option.map shiftMM bestL) =
        Option.map shiftMM bestL := rfl
    have h2 : (mmLoopG recL [] b Player.O alpha beta acc).1 = acc := rfl
    rw [h1, h2, scanO_eq_st, hstate]
  | cons i rest ih =>
    intro b hb hcells alpha beta ha1 ha2 hc1 hc2 acc bs bestL hbs1 hbs2 hstate
    obtain ⟨hi9, hcell⟩ := hcells i (List.mem_cons_self i rest)
    have hrest : ∀ j ∈ rest, j < 9 ∧ getCell b j = none :=
      fun j hj => hcells j (List.mem_cons_of_mem i hj)
    have hbset : (b.set i (some Player.O)).length = 9 := by
      rw [List.length_set]
      exact hb
    have hscB := hrecB (b.set i (some Player.O)) Player.X alpha beta
    have hr := hrec (b.set i (some Player.O)) Player.X alpha beta hbset
      ha1 ha2 hc1 hc2
    simp only [mmGoBM, mmLoopG]
    rw [← encodeBM_set_O b i hb hi9 hcell, hr,
      hrecF (b.set i (some Player.O)) Player.X alpha beta,
      set_set_restore b i Player.O hcell]
    set sc := (recL (b.set i (some Player.O)) Player.X alpha beta).1.score
      with hscdef
    have hmax : max (shiftScore alpha) (shiftScore sc) = shiftScore (max alpha sc) :=
      (shiftScore_max alpha sc ha1 (by omega)).symm
    by_cases hprune : beta ≤ max alpha sc
    · have hpruneN : shiftScore beta ≤
          max (shiftScore alpha) (shiftScore sc) := by
        rw [hmax, shiftScore_le beta (max alpha sc) hc1 (by omega)]
        exact hprune
      rw [if_pos hpruneN, if_pos hprune]
      rw [scanO_eq_st, scanStO_append, hstate]
      by_cases hkeep : bs < sc
      · have hkeepN : shiftScore bs < shiftScore sc := by
          rw [shiftScore_lt bs sc hbs1 (by omega)]
          exact hkeep
        rw [if_pos hkeepN]
        show some (⟨i, shiftScore sc⟩ : MMoveN) =
          Option.map shiftMM (scanStO [⟨i, sc⟩] bs bestL).2
        rw [scanStO, if_pos (show bs < (⟨i, sc⟩ : MMove).score from hkeep)]
        rfl
      · have hkeepN : ¬(shiftScore bs < shiftScore sc) := by
          rw [shiftScore_lt bs sc hbs1 (by omega)]
          exact hkeep
        rw [if_neg hkeepN]
        show Option.map shiftMM bestL =
          Option.map shiftMM (scanStO [⟨i, sc⟩] bs bestL).2
        rw [scanStO, if_neg (show ¬(bs < (⟨i, sc⟩ : MMove).score) from hkeep)]
        rfl
    · have hpruneN : ¬(shiftScore beta ≤
          max (shiftScore alpha) (shiftScore sc)) := by
        rw [hmax, shiftScore_le beta (max alpha sc) hc1 (by omega)]
        exact hprune
      rw [if_neg hpruneN, if_neg hprune]
      have hstate' : scanStO (acc ++ [(⟨i, sc⟩ : MMove)]) negInf none =
          (if bs < sc then sc else bs,
           if bs < sc then some (⟨i, sc⟩ : MMove) else bestL) := by
        rw [scanStO_append, hstate]
        show scanStO [⟨i, sc⟩] bs bestL = _
        by_cases hkeep : bs < sc
        · rw [scanStO, if_pos (show bs < (⟨i, sc⟩ : MMove).score from hkeep),
            if_pos hkeep, if_pos hkeep]
          rfl
        · rw [scanStO, if_neg (show ¬(bs < (⟨i, sc⟩ : MMove).score) from hkeep),
            if_neg hkeep, if_neg hkeep]
          rfl
      by_cases hkeep : bs < sc
      · have hkeepN : shiftScore bs < shiftScore sc := by
          rw [shiftScore_lt bs sc hbs1 (by omega)]
          exact hkeep
        rw [if_pos hkeepN, hmax]
        have := ih b hb hrest (max alpha sc) beta (le_trans ha1 (le_max_left _ _))
          (max_le ha2 (by omega : sc ≤ 1000)) hc1 hc2
          (acc ++ [(⟨i, sc⟩ : MMove)]) sc (some (⟨i, sc⟩ : MMove))
          (by omega) (by omega)
          (by rw [hstate', if_pos hkeep, if_pos hkeep])
        show mmGoBM recN rest (encodeBM b) Player.O (shiftScore (max alpha sc))
            (shiftScore beta) (shiftScore sc)
            (Option.map shiftMM (some (⟨i, sc⟩ : MMove))) = _
        exact this
      · have hkeepN : ¬(shiftScore bs < shiftScore sc) := by
          rw [shiftScore_lt bs sc hbs1 (by omega)]
          exact hkeep
        rw [if_neg hkeepN, hmax]
        exact ih b hb hrest (max alpha sc) beta (le_trans ha1 (le_max_left _ _))
          (max_le ha2 (by omega : sc ≤ 1000)) hc1 hc2
          (acc ++ [(⟨i, sc⟩ : MMove)]) bs bestL hbs1 hbs2
          (by rw [hstate', if_neg hkeep, if_neg hkeep])

theorem mmGoBM_eq_X
    (recL : Board → Player → Int → Int → MMResult × Board)
    (recN : Nat → Player → Nat → Nat → MMResultN)
    (hrec : ∀ b' p' a' c', b'.length = 9 → -1000 ≤ a' → a' ≤ 1000 →
      -1000 ≤ c' → c' ≤ 1000 →
      recN (encodeBM b') p' (shiftScore a') (shiftScore c') =
        ⟨shiftScore (recL b' p' a' c').1.score, (recL b' p' a' c').1.index⟩)
    (hrecF : ∀ b' p' a' c', (recL b' p' a' c').2 = b')
    (hrecB : ∀ b' p' a' c', -10 ≤ (recL b' p' a' c').1.score ∧
      (recL b' p' a' c').1.score ≤ 10) :
    ∀ (cells : List Nat) (b : Board), b.length = 9 →
      (∀ i ∈ cells, i < 9 ∧ getCell b i = none) →
      ∀ (alpha beta : Int), -1000 ≤ alpha → alpha ≤ 1000 →
        -1000 ≤ beta → beta ≤ 1000 →
      ∀ (acc : List MMove) (bs : Int) (bestL : Option MMove),
        -1000 ≤ bs → bs ≤ 1000 →
        scanStX acc posInf none = (bs, bestL) →
        mmGoBM recN cells (encodeBM b) Player.X (shiftScore alpha)
            (shiftScore beta) (shiftScore bs) (Option.map shiftMM bestL) =
          Option.map shiftMM
            (scanX (mmLoopG recL cells b Player.X alpha beta acc).1
              posInf none) := by
  intro cells
  induction cells with
  | nil =>
    intro b hb hcells alpha beta ha1 ha2 hc1 hc2 acc bs bestL hbs1 hbs2 hstate
    have h1 : mmGoBM recN [] (encodeBM b) Player.X (shiftScore alpha)
        (shiftScore beta) (shiftScore bs) (Option.map shiftMM bestL) =
        Option.map shiftMM bestL := rfl
    have h2 : (mmLoopG recL [] b Player.X alpha beta acc).1 = acc := rfl
    rw [h1, h2, scanX_eq_st, hstate]
  | cons i rest ih =>
    intro b hb hcells alpha beta ha1 ha2 hc1 hc2 acc bs bestL hbs1 hbs2 hstate
    obtain ⟨hi9, hcell⟩ := hcells i (List.mem_cons_self i rest)
    have hrest : ∀ j ∈ rest, j < 9 ∧ getCell b j = none :=
      fun j hj => hcells j (List.mem_cons_of_mem i hj)
    have hbset : (b.set i (some Player.X)).length = 9 := by
      rw [List.length_set]
      exact hb
    have hscB := hrecB (b.set i (some Player.X)) Player.O alpha beta
    have hr := hrec (b.set i (some Player.X)) Player.O alpha beta hbset
      ha1 ha2 hc1 hc2
    simp only [mmGoBM, mmLoopG]
    rw [← encodeBM_set_X b i hb hi9 hcell, hr,
      hrecF (b.set i (some Player.X)) Player.O alpha beta,
      set_set_restore b i Player.X hcell]
    set sc := (recL (b.set i (some Player.X)) Player.O alpha beta).1.score
      with hscdef
    have hmin : min (shiftScore beta) (shiftScore sc) = shiftScore (min beta sc) :=
      (shiftScore_min beta sc hc1 (by omega)).symm
    by_cases hprune : min beta sc ≤ alpha
    · have hpruneN : min (shiftScore beta) (shiftScore sc) ≤ shiftScore alpha := by
        rw [hmin, shiftScore_le (min beta sc) alpha (le_min hc1 (by omega)) ha1]
        exact hprune
      rw [if_pos hpruneN, if_pos hprune]
      rw [scanX_eq_st, scanStX_append, hstate]
      by_cases hkeep : sc < bs
      · have hkeepN : shiftScore sc < shiftScore bs := by
          rw [shiftScore_lt sc bs (by omega) hbs1]
          exact hkeep
        rw [if_pos hkeepN]
        show some (⟨i, shiftScore sc⟩ : MMoveN) =
          Option.map shiftMM (scanStX [⟨i, sc⟩] bs bestL).2
        rw [scanStX, if_pos (show (⟨i, sc⟩ : MMove).score < bs from hkeep)]
        rfl
      · have hkeepN : ¬(shiftScore sc < shiftScore bs) := by
          rw [shiftScore_lt sc bs (by omega) hbs1]
          exact hkeep
        rw [if_neg hkeepN]
        show Option.map shiftMM bestL =
          Option.map shiftMM (scanStX [⟨i, sc⟩] bs bestL).2
        rw [scanStX, if_neg (show ¬((⟨i, sc⟩ : MMove).score < bs) from hkeep)]
        rfl
    · have hpruneN : ¬(min (shiftScore beta) (shiftScore sc) ≤ shiftScore alpha) := by
        rw [hmin, shiftScore_le (min beta sc) alpha (le_min hc1 (by omega)) ha1]
        exact hprune
      rw [if_neg hpruneN, if_neg hprune]
      have hstate' : scanStX (acc ++ [(⟨i, sc⟩ : MMove)]) posInf none =
          (if sc < bs then sc else bs,
           if sc < bs then some (⟨i, sc⟩ : MMove) else bestL) := by
        rw [scanStX_append, hstate]
        show scanStX [⟨i, sc⟩] bs bestL = _
        by_cases hkeep : sc < bs
        · rw [scanStX, if_pos (show (⟨i, sc⟩ : MMove).score < bs from hkeep),
            if_pos hkeep, if_pos hkeep]
          rfl
        · rw [scanStX, if_neg (show ¬((⟨i, sc⟩ : MMove).score < bs) from hkeep),
            if_neg hkeep, if_neg hkeep]
          rfl
      by_cases hkeep : sc < bs
      · have hkeepN : shiftScore sc < shiftScore bs := by
          rw [shiftScore_lt sc bs (by omega) hbs1]
          exact hkeep
        rw [if_pos hkeepN, hmin]
        have := ih b hb hrest alpha (min beta sc) ha1 ha2
          (le_min hc1 (by omega : (-1000 : Int) ≤ sc))
          (min_le_of_left_le hc2)
          (acc ++ [(⟨i, sc⟩ : MMove)]) sc (some (⟨i, sc⟩ : MMove))
          (by omega) (by omega)
          (by rw [hstate', if_pos hkeep, if_pos hkeep])
        show mmGoBM recN rest (encodeBM b) Player.X (shiftScore alpha)
            (shiftScore (min beta sc)) (shiftScore sc)
            (Option.map shiftMM (some (⟨i, sc⟩ : MMove))) = _
        exact this
      · have hkeepN : ¬(shiftScore sc < shiftScore bs) := by
          rw [shiftScore_lt sc bs (by omega) hbs1]
          exact hkeep
        rw [if_neg hkeepN, hmin]
        exact ih b hb hrest alpha (min beta sc) ha1 ha2
          (le_min hc1 (by omega : (-1000 : Int) ≤ sc))
          (min_le_of_left_le hc2)
          (acc ++ [(⟨i, sc⟩ : MMove)]) bs bestL hbs1 hbs2
          (by rw [hstate', if_neg hkeep, if_neg hkeep])

theorem minimaxBM_eq (fuel : Nat) :
    ∀ (b : Board) (p : Player) (alpha beta : Int), b.length = 9 →
      -1000 ≤ alpha → alpha ≤ 1000 → -1000 ≤ beta → beta ≤ 1000 →
      minimaxBM fuel (encodeBM b) p (shiftScore alpha) (shiftScore beta) =
        ⟨shiftScore (minimaxF fuel b p alpha beta).1.score,
         (minimaxF fuel b p alpha beta).1.index⟩ := by
  induction fuel with
  | zero =>
    intro b p alpha beta hb ha1 ha2 hc1 hc2
    rfl
  | succ k ih =>
    intro b p alpha beta hb ha1 ha2 hc1 hc2
    rw [minimaxBM, minimaxF]
    rw [winTBX_eq b hb, winTBO_eq b hb, cellsBM_eq b hb]
    by_cases hwx : checkWinOnBoard b Player.X = true
    · rw [if_pos hwx, if_pos hwx]
      rfl
    · rw [if_neg hwx, if_neg hwx]
      by_cases hwo : checkWinOnBoard b Player.O = true
      · rw [if_pos hwo, if_pos hwo]
        rfl
      · rw [if_neg hwo, if_neg hwo]
        cases hcells : emptyCells b with
        | nil =>
          rw [if_pos (by rfl)]
          rfl
        | cons i rest =>
          rw [if_neg (by simp)]
          have hmem : ∀ j ∈ i :: rest, j < 9 ∧ getCell b j = none := by
            intro j hj
            rw [← hcells] at hj
            obtain ⟨h1, h2⟩ := (mem_emptyCells b j).mp hj
            exact ⟨by omega, h2⟩
          cases p with
          | O =>
            have hloop := mmGoBM_eq_O (minimaxF k) (minimaxBM k) ih
              (minimaxF_board k) (minimaxF_score_bounds k) (i :: rest) b hb hmem
              alpha beta ha1 ha2 hc1 hc2 [] negInf none (by norm_num [negInf])
              (by norm_num [negInf]) rfl
            show (match mmGoBM (minimaxBM k) (i :: rest) (encodeBM b) Player.O
                (shiftScore alpha) (shiftScore beta) 0 none with
              | some m => (⟨m.score, some m.index⟩ : MMResultN)
              | none => ⟨1000, none⟩) = _
            rcases hLB : mmLoopG (minimaxF k) (i :: rest) b Player.O alpha beta []
              with ⟨moves, b1⟩
            rw [hLB] at hloop
            dsimp only
            dsimp only at hloop
            have h0 : (0 : Nat) = shiftScore negInf := rfl
            have hnone : (none : Option MMoveN) = Option.map shiftMM none := rfl
            rw [h0, hnone, hloop]
            cases hsel : scanO moves negInf none with
            | none =>
              rw [show selectO moves = none from hsel]
              rfl
            | some m =>
              rw [show selectO moves = some m from hsel]
              rfl
          | X =>
            have hloop := mmGoBM_eq_X (minimaxF k) (minimaxBM k) ih
              (minimaxF_board k) (minimaxF_score_bounds k) (i :: rest) b hb hmem
              alpha beta ha1 ha2 hc1 hc2 [] posInf none (by norm_num [posInf])
              (by norm_num [posInf]) rfl
            show (match mmGoBM (minimaxBM k) (i :: rest) (encodeBM b) Player.X
                (shiftScore alpha) (shiftScore beta) 2000 none with
              | some m => (⟨m.score, some m.index⟩ : MMResultN)
              | none => ⟨1000, none⟩) = _
            rcases hLB : mmLoopG (minimaxF k) (i :: rest) b Player.X alpha beta []
              with ⟨moves, b1⟩
            rw [hLB] at hloop
            dsimp only
            dsimp only at hloop
            have h0 : (2000 : Nat) = shiftScore posInf := rfl
            have hnone : (none : Option MMoveN) = Option.map shiftMM none := rfl
            rw [h0, hnone, hloop]
            cases hsel : scanX moves posInf none with
            | none =>
              rw [show selectX moves = none from hsel]
              rfl
            | some m =>
              rw [show selectX moves = some m from hsel]
              rfl

/-! ## C1, step 4: soundness of the bounded safety search -/

theorem bestBM_eq (b : Board) (hb : b.length = 9) :
    bestBM (encodeBM b) = getBestMove b := by
  have h := minimaxBM_eq 9 b Player.O negInf posInf hb
    (by norm_num [negInf]) (by norm_num [negInf])
    (by norm_num [posInf]) (by norm_num [posInf])
  show (minimaxBM 9 (encodeBM b) Player.O 0 2000).index =
    (minimax b Player.O negInf posInf).1.index
  rw [show (0 : Nat) = shiftScore negInf from rfl,
    show (2000 : Nat) = shiftScore posInf from rfl, h]
  rfl

theorem getBestMove_mem (b : Board) (j : Nat) (hne : emptyCells b ≠ [])
    (hX : checkWinOnBoard b Player.X = false)
    (hO : checkWinOnBoard b Player.O = false)
    (h : getBestMove b = some j) : j ∈ emptyCells b := by
  obtain ⟨ms1, m, ms2, _, hres, hmap, _, _, _, _⟩ :=
    minimax_root_selection_aux b Player.O negInf posInf hne hX hO
  have h4 : getBestMove b = some m.index := by
    show (minimax b Player.O negInf posInf).1.index = _
    rw [hres]
  have hj : j = m.index := Option.some.inj (h.symm.trans h4)
  subst hj
  have hmem : m.index ∈ (ms1 ++ m :: ms2).map fun x => x.index :=
    List.mem_map.mpr ⟨m, by simp, rfl⟩
  rw [hmap] at hmem
  exact List.take_subset _ _ hmem

theorem noXWinBM_noWin (fuel : Nat) (n : Nat) (h : noXWinBM fuel n = true) :
    winTBX n = false := by
  cases fuel with
  | zero =>
    rw [noXWinBM] at h
    simpa using h
  | succ k =>
    rw [noXWinBM] at h
    by_cases hw : winTBX n = true
    · rw [if_pos hw] at h
      exact absurd h (by simp)
    · simpa using hw

theorem minimax_terminal_score (c : Board) (hT : Terminal c)
    (hX : checkWinOnBoard c Player.X = false) :
    (minimax c Player.O negInf posInf).1.score = 0 ∨
      (minimax c Player.O negInf posInf).1.score = 10 := by
  show (minimaxF (8 + 1) c Player.O negInf posInf).1.score = 0 ∨
    (minimaxF (8 + 1) c Player.O negInf posInf).1.score = 10
  rw [minimaxF, if_neg (by simp [hX])]
  by_cases hwo : checkWinOnBoard c Player.O = true
  · rw [if_pos hwo]
    right
    rfl
  · rw [if_neg hwo]
    have hcells : emptyCells c = [] := by
      rcases hT with h | h | h
      · rw [h] at hX
        exact Bool.noConfusion hX
      · exact absurd h hwo
      · exact h
    rw [if_pos (by rw [hcells]; rfl)]
    left
    rfl

theorem emptyCells_length_set (b : Board) (i : Nat) (p : Player)
    (hi : i < b.length) (hc : getCell b i = none) :
    (emptyCells (b.set i (some p))).length + 1 = (emptyCells b).length := by
  rw [emptyCells_eq_emptyIdx, emptyCells_eq_emptyIdx]
  induction b generalizing i with
  | nil => simp at hi
  | cons c rest ih =>
    cases i with
    | zero =>
      rw [getCell_cons_zero] at hc
      subst hc
      rw [show (none :: rest).set 0 (some p) = some p :: rest from rfl,
        emptyIdx_some, emptyIdx_none]
      simp
    | succ k =>
      rw [getCell_cons_succ] at hc
      rw [show (c :: rest).set (k + 1) (some p) = c :: rest.set k (some p)
        from rfl]
      have hk : k < rest.length := by simpa using hi
      cases hcc : c == none with
      | true =>
        have hc' : c = none := by simpa using hcc
        subst hc'
        rw [emptyIdx_none, emptyIdx_none]
        simp only [List.length_cons, List.length_map]
        have := ih k hk hc
        simp only [List.length_map] at this
        omega
      | false =>
        have hc' : c ≠ none := by simpa using hcc
        obtain ⟨q, rfl⟩ : ∃ q, c = some q := by
          cases c
          · exact absurd rfl hc'
          · exact ⟨_, rfl⟩
        rw [emptyIdx_some, emptyIdx_some]
        simp only [List.length_map]
        have := ih k hk hc
        simp only [List.length_map] at this
        omega

theorem oPlayEnd_terminal (b c : Board) (h : OPlayEnd b c) : Terminal c := by
  induction h with
  | endX _ _ _ _ hT => exact hT
  | endO _ _ _ _ _ _ _ hT => exact hT
  | step _ _ _ _ _ _ _ _ _ _ ih => exact ih

theorem noXWinBM_sound (bfinal b : Board) (hplay : OPlayEnd b bfinal) :
    b.length = 9 →
      ∀ fuel, (emptyCells b).length ≤ 2 * fuel →
        noXWinBM fuel (encodeBM b) = true →
        checkWinOnBoard bfinal Player.X = false := by
  induction hplay with
  | endX b i hT hmem hT1 =>
    intro hb fuel hfuel hsafe
    rw [Terminal, not_or, not_or] at hT
    obtain ⟨hX, hO, hcne⟩ := hT
    rw [Bool.not_eq_true] at hX hO
    have hlen1 : 1 ≤ (emptyCells b).length := by
      cases hc : emptyCells b
      · exact absurd hc hcne
      · simp [hc]
    obtain ⟨f, rfl⟩ : ∃ f, fuel = f + 1 := ⟨fuel - 1, by omega⟩
    rw [noXWinBM, winTBX_eq b hb, winTBO_eq b hb, cellsBM_eq b hb,
      if_neg (by simp [hX]), if_neg (by simp [hO])] at hsafe
    obtain ⟨hi9, hcell⟩ := (mem_emptyCells b i).mp hmem
    cases hc : emptyCells b with
    | nil => exact absurd hc hcne
    | cons i0 r0 =>
      rw [hc] at hsafe
      have hstep : noXStepG (noXWinBM f) (encodeBM b) i = true :=
        List.all_eq_true.mp hsafe i (by rw [← hc]; exact hmem)
      rw [noXStepG, ← encodeBM_set_X b i hb (by rw [← hb]; exact hi9) hcell,
        winTBX_eq _ (by rw [List.length_set]; exact hb)] at hstep
      by_cases hw1 : checkWinOnBoard (b.set i (some Player.X)) Player.X = true
      · rw [if_pos hw1] at hstep
        exact absurd hstep (by simp)
      · simpa using hw1
  | endO b i j hT hmem hT1 hbest hT2 =>
    intro hb fuel hfuel hsafe
    rw [Terminal, not_or, not_or] at hT
    obtain ⟨hX, hO, hcne⟩ := hT
    rw [Bool.not_eq_true] at hX hO
    obtain ⟨hi9, hcell⟩ := (mem_emptyCells b i).mp hmem
    have hb1 : (b.set i (some Player.X)).length = 9 := by
      rw [List.length_set]
      exact hb
    have hX1 : checkWinOnBoard (b.set i (some Player.X)) Player.X = false := by
      rw [Terminal, not_or, not_or] at hT1
      rw [Bool.not_eq_true] at hT1
      exact hT1.1
    have hO1 : checkWinOnBoard (b.set i (some Player.X)) Player.O = false := by
      cases hw : checkWinOnBoard (b.set i (some Player.X)) Player.O
      · rfl
      · have := checkWin_of_set b i (some Player.X) Player.O (by simp) hw
        rw [hO] at this
        exact Bool.noConfusion this
    exact (Bool.not_eq_true _).mp fun hw2 => by
      have := checkWin_of_set (b.set i (some Player.X)) j (some Player.O)
        Player.X (by simp) hw2
      rw [hX1] at this
      exact Bool.noConfusion this
  | step b c i j hT hmem hT1 hbest hT2 hplay2 ih =>
    intro hb fuel hfuel hsafe
    rw [Terminal, not_or, not_or] at hT
    obtain ⟨hX, hO, hcne⟩ := hT
    rw [Bool.not_eq_true] at hX hO
    obtain ⟨hi9, hcell⟩ := (mem_emptyCells b i).mp hmem
    have hlen1 : 1 ≤ (emptyCells b).length := by
      cases hc : emptyCells b
      · exact absurd hc hcne
      · simp [hc]
    obtain ⟨f, rfl⟩ : ∃ f, fuel = f + 1 := ⟨fuel - 1, by omega⟩
    rw [noXWinBM, winTBX_eq b hb, winTBO_eq b hb, cellsBM_eq b hb,
      if_neg (by simp [hX]), if_neg (by simp [hO])] at hsafe
    have hb1 : (b.set i (some Player.X)).length = 9 := by
      rw [List.length_set]
      exact hb
    rw [Terminal, not_or, not_or] at hT1
    obtain ⟨hX1', hO1', hcne1⟩ := hT1
    rw [Bool.not_eq_true] at hX1' hO1'
    cases hc : emptyCells b with
    | nil => exact absurd hc hcne
    | cons i0 r0 =>
      rw [hc] at hsafe
      have hstep : noXStepG (noXWinBM f) (encodeBM b) i = true :=
        List.all_eq_true.mp hsafe i (by rw [← hc]; exact hmem)
      rw [noXStepG, ← encodeBM_set_X b i hb (by rw [← hb]; exact hi9) hcell,
        winTBX_eq _ hb1, winTBO_eq _ hb1, if_neg (by simp [hX1']),
        if_neg (by simp [hO1']), cellsBM_eq _ hb1] at hstep
      have hjmem : j ∈ emptyCells (b.set i (some Player.X)) :=
        getBestMove_mem _ j hcne1 hX1' hO1' hbest
      obtain ⟨hj9, hjcell⟩ := (mem_emptyCells _ j).mp hjmem
      have hb2 : ((b.set i (some Player.X)).set j (some Player.O)).length = 9 := by
        rw [List.length_set]
        exact hb1
      cases hc1 : emptyCells (b.set i (some Player.X)) with
      | nil => exact absurd hc1 hcne1
      | cons i1 r1 =>
        rw [hc1] at hstep
        rw [bestBM_eq _ hb1, hbest] at hstep
        dsimp only at hstep
        rw [← encodeBM_set_O _ j hb1 (by rw [← hb1]; exact hj9) hjcell] at hstep
        refine ih hb2 f ?_ hstep
        have hd1 := emptyCells_length_set b i Player.X hi9 hcell
        have hd2 := emptyCells_length_set (b.set i (some Player.X)) j Player.O
          hj9 hjcell
        omega


/-! ## C1, step 5: the kernel computation, split by X's first move -/

set_option maxRecDepth 1000000 in
set_option maxHeartbeats 0 in
theorem noXChunk0 : noXStepG (noXWinBM 8) 0 0 = true := by decide

set_option maxRecDepth 1000000 in
set_option maxHeartbeats 0 in
theorem noXChunk1 : noXStepG (noXWinBM 8) 0 1 = true := by decide

set_option maxRecDepth 1000000 in
set_option maxHeartbeats 0 in
theorem noXChunk2 : noXStepG (noXWinBM 8) 0 2 = true := by decide

set_option maxRecDepth 1000000 in
set_option maxHeartbeats 0 in
theorem noXChunk3 : noXStepG (noXWinBM 8) 0 3 = true := by decide

set_option maxRecDepth 1000000 in
set_option maxHeartbeats 0 in
theorem noXChunk4 : noXStepG (noXWinBM 8) 0 4 = true := by decide

set_option maxRecDepth 1000000 in
set_option maxHeartbeats 0 in
theorem noXChunk5 : noXStepG (noXWinBM 8) 0 5 = true := by decide

set_option maxRecDepth 1000000 in
set_option maxHeartbeats 0 in
theorem noXChunk6 : noXStepG (noXWinBM 8) 0 6 = true := by decide

set_option maxRecDepth 1000000 in
set_option maxHeartbeats 0 in
theorem noXChunk7 : noXStepG (noXWinBM 8) 0 7 = true := by decide

set_option maxRecDepth 1000000 in
set_option maxHeartbeats 0 in
theorem noXChunk8 : noXStepG (noXWinBM 8) 0 8 = true := by decide

theorem noXWinBM_nine : noXWinBM 9 0 = true := by
  rw [show (9 : Nat) = 8 + 1 from rfl, noXWinBM]
  rw [if_neg (by decide), if_neg (by decide)]
  rw [show cellsBM 0 = [0, 1, 2, 3, 4, 5, 6, 7, 8] from by decide]
  dsimp only
  simp only [List.all_cons, List.all_nil, noXChunk0, noXChunk1, noXChunk2,
    noXChunk3, noXChunk4, noXChunk5, noXChunk6, noXChunk7, noXChunk8]
  rfl

/-- **C1.** In every complete game from the empty board in which X moves
first playing arbitrary legal moves and every O move is chosen by
`getBestMove`, the final board is never a win for X, and the terminal
minimax score is non-negative (a draw or an O win). -/
theorem o_policy_never_loses (c : Board) (h : OPlayEnd emptyBoard c) :
    checkWinOnBoard c Player.X = false ∧
      0 ≤ (minimax c Player.O negInf posInf).1.score := by
  have hX : checkWinOnBoard c Player.X = false := by
    refine noXWinBM_sound c emptyBoard h (by decide) 9 (by decide) ?_
    rw [show encodeBM emptyBoard = 0 from by decide]
    exact noXWinBM_nine
  refine ⟨hX, ?_⟩
  rcases minimax_terminal_score c (oPlayEnd_terminal _ _ h) hX with h0 | h0 <;>
    rw [h0] <;> norm_num

theorem o_policy_never_loses_witness :
    checkWinOnBoard
        ((((((emptyBoard.set 1 (some Player.X)).set 0 (some Player.O)).set 2
          (some Player.X)).set 3 (some Player.O)).set 4 (some Player.X)).set 6
          (some Player.O)) Player.X = false ∧
      0 ≤ (minimax
        ((((((emptyBoard.set 1 (some Player.X)).set 0 (some Player.O)).set 2
          (some Player.X)).set 3 (some Player.O)).set 4 (some Player.X)).set 6
          (some Player.O)) Player.O negInf posInf).1.score := by
  refine o_policy_never_loses _ ?_
  refine OPlayEnd.step emptyBoard _ 1 0 (by decide) (by decide) (by decide)
    ?_ (by decide) ?_
  · rw [← bestBM_eq _ (by decide)]
    decide
  refine OPlayEnd.step _ _ 2 3 (by decide) (by decide) (by decide)
    ?_ (by decide) ?_
  · rw [← bestBM_eq _ (by decide)]
    decide
  refine OPlayEnd.endO _ 4 6 (by decide) (by decide) (by decide)
    ?_ (by decide)
  rw [← bestBM_eq _ (by decide)]
  decide
